import Mathlib

set_option maxRecDepth 20000

/-!
Verification of the markdown/LaTeX sanitization utilities:
`tools/latex_sanitize_notebook.py` and `tools/fix_pdf_metadata.py`.
Strings are embedded as `List Char`; Python's `str.replace`, `str.split`
and `sep.join` are modelled by `pyReplace`, `pySplit` and `joinSep`.
-/

namespace S2P

/-- Backtick character. -/
def bt : Char := Char.ofNat 96

/-- The triple-backtick fence marker. -/
def f3 : List Char := [bt, bt, bt]

/-- ASCII apostrophe. -/
def apos : Char := Char.ofNat 39

/-- Backslash character. -/
def bsl : Char := '\\'

/-- Does `pat` occur at the very start of `s`? (Substring match at position 0.) -/
def begins : List Char → List Char → Bool
  | [], _ => true
  | _ :: _, [] => false
  | p :: ps, c :: cs => p == c && begins ps cs

/-- Fuel-bounded scanner behind `pyReplace`.  With fuel at least the length of
the text this is Python's `str.replace`: scan left to right, replacing each
leftmost non-overlapping occurrence of the (nonempty) pattern `p :: ps`. -/
def replAux : Nat → Char → List Char → List Char → List Char → List Char
  | 0, _, _, _, s => s
  | _ + 1, _, _, _, [] => []
  | f + 1, p, ps, repl, c :: rest =>
    if begins (p :: ps) (c :: rest) then
      repl ++ replAux f p ps repl (rest.drop ps.length)
    else
      c :: replAux f p ps repl rest

/-- Python `s.replace(pat, repl)` for a nonempty pattern (all patterns used by
the sanitizer are nonempty; the empty-pattern case is never invoked). -/
def pyReplace (pat repl s : List Char) : List Char :=
  match pat with
  | [] => s
  | p :: ps => replAux s.length p ps repl s

/-- Fuel-bounded scanner behind `pySplit`. -/
def splitAux : Nat → Char → List Char → List Char → List (List Char)
  | 0, _, _, s => [s]
  | _ + 1, _, _, [] => [[]]
  | f + 1, p, ps, c :: rest =>
    if begins (p :: ps) (c :: rest) then
      [] :: splitAux f p ps (rest.drop ps.length)
    else
      match splitAux f p ps rest with
      | [] => [[c]]
      | t :: ts => (c :: t) :: ts

/-- Python `s.split(pat)` for a nonempty pattern. -/
def pySplit (pat s : List Char) : List (List Char) :=
  match pat with
  | [] => [s]
  | p :: ps => splitAux s.length p ps s

/-- Python `sep.join(parts)`. -/
def joinSep (sep : List Char) : List (List Char) → List Char
  | [] => []
  | [p] => p
  | p :: q :: rest => p ++ sep ++ joinSep sep (q :: rest)

/-- Apply `g` to the elements in even positions (0-based) when started with
`false`, leaving odd positions untouched: this is the `enumerate`/`i % 2 == 1`
pattern of `_convert_math_delimiters`. -/
def mapAlt (g : List Char → List Char) : Bool → List (List Char) → List (List Char)
  | _, [] => []
  | b, p :: ps => (if b then p else g p) :: mapAlt g (!b) ps

/-- The replacement `$$`. -/
def ddol : List Char := ['$', '$']

/-- The four prose rewrites of `_convert_math_delimiters`, in program order. -/
def dollarize (s : List Char) : List Char :=
  pyReplace [bsl, ')'] ['$']
    (pyReplace [bsl, '('] ['$']
      (pyReplace [bsl, ']'] ddol
        (pyReplace [bsl, '['] ddol s)))

/-- Processing of one fence-delimited part: split on single backticks, rewrite
the even (non-inline-code) subparts, and rejoin. -/
def convertPart (part : List Char) : List Char :=
  joinSep [bt] (mapAlt dollarize false (pySplit [bt] part))

/-- `_convert_math_delimiters`: split on triple-backtick fences, process the
even (non-fenced) parts, and rejoin. -/
def convertMathDelimiters (text : List Char) : List Char :=
  joinSep f3 (mapAlt convertPart false (pySplit f3 text))

/-- The `unicode_fixes` table of `sanitize_notebook`, in program order. -/
def unicodeFixes : List (Char × List Char) :=
  [('\u00A0', [' ']),
   ('\u2018', [apos]),
   ('\u2019', [apos]),
   ('\u201C', ['"']),
   ('\u201D', ['"']),
   ('\u2013', ['-']),
   ('\u2014', ['-']),
   ('\u2026', ['.', '.', '.']),
   ('\u2192', ['-', '>']),
   ('\u21D2', ['=', '>']),
   ('\u21A6', ['|', '-', '>']),
   ('\u2212', ['-']),
   ('\u200B', []),
   ('\u200C', []),
   ('\u200D', []),
   ('\uFEFF', [])]

/-- The per-character form of the Unicode mapping: keys map to their
replacement, all other characters to themselves. -/
def uniChar (c : Char) : List Char :=
  if c = '\u00A0' then [' ']
  else if c = '\u2018' then [apos]
  else if c = '\u2019' then [apos]
  else if c = '\u201C' then ['"']
  else if c = '\u201D' then ['"']
  else if c = '\u2013' then ['-']
  else if c = '\u2014' then ['-']
  else if c = '\u2026' then ['.', '.', '.']
  else if c = '\u2192' then ['-', '>']
  else if c = '\u21D2' then ['=', '>']
  else if c = '\u21A6' then ['|', '-', '>']
  else if c = '\u2212' then ['-']
  else if c = '\u200B' then []
  else if c = '\u200C' then []
  else if c = '\u200D' then []
  else if c = '\uFEFF' then []
  else [c]

/-- The Unicode-normalization loop of `sanitize_notebook`: one `str.replace`
per table entry, in table order, over the whole text. -/
def applyUnicodeFixes (s : List Char) : List Char :=
  unicodeFixes.foldl (fun t pr => pyReplace [pr.1] pr.2 t) s

/-- Character-wise expansion of a `Char → List Char` map over a text. -/
def mapChars (g : Char → List Char) : List Char → List Char
  | [] => []
  | c :: rest => g c ++ mapChars g rest

/-- The flat-text transformation applied by `sanitize_notebook` to a markdown
cell's joined source: Unicode fixes, then math-delimiter conversion. -/
def sanitizeText (s : List Char) : List Char :=
  convertMathDelimiters (applyUnicodeFixes s)

/-- Last character of a text, if any. -/
def lastChar : List Char → Option Char
  | [] => none
  | [c] => some c
  | _ :: c :: rest => lastChar (c :: rest)

/-- Append a character to the last fragment of a fragment list. -/
def appendLast (a : Char) : List (List Char) → List (List Char)
  | [] => [[a]]
  | [p] => [p ++ [a]]
  | p :: q :: rest => p :: appendLast a (q :: rest)

/-- The reassembly loop of `sanitize_notebook`: each line, with a separate
newline item between consecutive lines. -/
def interleaveNl : List (List Char) → List (List Char)
  | [] => []
  | [l] => [l]
  | l :: q :: rest => l :: ['\n'] :: interleaveNl (q :: rest)

/-- The list-source branch of `sanitize_notebook`: join the fragments, rewrite
the flat text, and if it changed, re-split on newlines (with the trailing
newline fix-up); otherwise keep the original fragments. -/
def sanitizeSourceList (frags : List (List Char)) : List (List Char) :=
  let original := frags.flatten
  let text := sanitizeText original
  if text = original then frags
  else
    let result := interleaveNl (pySplit ['\n'] text)
    if lastChar original = some '\n' ∧ ¬ lastChar text = some '\n' then
      result ++ [['\n']]
    else result

/-- The string-source branch of `sanitize_notebook`. -/
def sanitizeSourceStr (s : List Char) : List Char :=
  let t := sanitizeText s
  if t = s then s else t

/-- A notebook cell's `source` value: a flat string, a fragment list, or any
other JSON value (left untouched by the program). -/
inductive SrcVal where
  | strv (s : List Char)
  | listv (frags : List (List Char))
  | otherv
deriving DecidableEq

/-- Source rewriting per `sanitize_notebook`'s two `isinstance` branches. -/
def sanitizeSource : SrcVal → SrcVal
  | SrcVal.strv s => SrcVal.strv (sanitizeSourceStr s)
  | SrcVal.listv fr => SrcVal.listv (sanitizeSourceList fr)
  | SrcVal.otherv => SrcVal.otherv

/-- A notebook cell: its `cell_type`, its `source`, and all of its other
fields abstracted as an opaque payload of type `ρ`. -/
structure NbCell (ρ : Type) where
  cellType : List Char
  src : SrcVal
  meta : ρ
deriving DecidableEq

/-- A notebook: its cells and all other top-level fields abstracted as `ν`. -/
structure Notebook (ν ρ : Type) where
  cells : List (NbCell ρ)
  meta : ν
deriving DecidableEq

/-- Per-cell action of `sanitize_notebook`: only markdown cells are touched,
and only their `source` field. -/
def sanitizeCell {ρ : Type} (c : NbCell ρ) : NbCell ρ :=
  if c.cellType = "markdown".data then { c with src := sanitizeSource c.src } else c

/-- Whole-notebook action of `sanitize_notebook` on the loaded document. -/
def sanitizeNotebook {ν ρ : Type} (nb : Notebook ν ρ) : Notebook ν ρ :=
  { nb with cells := nb.cells.map sanitizeCell }

/-- `pat` occurs somewhere in `s` (Python's `pat in s`, and the matchability
of the `re.sub` literal pattern). -/
def Occurs (pat s : List Char) : Prop := ∃ a b, s = a ++ pat ++ b

/-- Boolean substring scan (Python's `in` operator). -/
def hasSub (pat : List Char) : List Char → Bool
  | [] => pat.isEmpty
  | c :: rest => begins pat (c :: rest) || hasSub pat rest

/-- Abstraction of a text onto its backtick skeleton: every maximal run of
non-backtick characters becomes a single marker character. -/
def collapse : List Char → List Char
  | [] => []
  | c :: rest =>
    if c = bt then bt :: collapse rest
    else
      match collapse rest with
      | [] => ['x']
      | d :: ds => if d = bt then 'x' :: d :: ds else d :: ds

/-- The string `pdftitle={Assignment 1}` used in the idempotence check of
`fix_pdf_metadata`. -/
def titleLine : List Char := "pdftitle=\x7bAssignment 1\x7d".data

/-- The anchor matched by `fix_pdf_metadata`'s regex (a literal). -/
def anchorPat : List Char := "\\hypersetup\x7b".data

/-- The replacement text of `fix_pdf_metadata`'s `re.sub`: the matched anchor
followed by the two inserted metadata lines. -/
def insertedBlock : List Char :=
  "\\hypersetup\x7b\n      pdftitle=\x7bAssignment 1\x7d,\n      pdfauthor=\x7bOnat Dalmaz\x7d,\n".data

/-- The informational outcome printed by `fix_pdf_metadata`. -/
inductive MetaResult where
  | added
  | alreadyPresent
deriving DecidableEq

/-- `re.sub(pat, repl, s, count=1)` for a literal pattern: replace the first
occurrence only. -/
def replaceFirst (pat repl : List Char) : List Char → List Char
  | [] => []
  | c :: rest =>
    if begins pat (c :: rest) then repl ++ (c :: rest).drop pat.length
    else c :: replaceFirst pat repl rest

/-- The content transformation of `fix_pdf_metadata`, with the message kind it
prints. -/
def fixPdfMetadata (content : List Char) : List Char × MetaResult :=
  if hasSub titleLine content then (content, MetaResult.alreadyPresent)
  else (replaceFirst anchorPat insertedBlock content, MetaResult.added)

/-- The configuration space of the sanitizer (spec §6). -/
structure SanitizeConfig where
  normalize_unicode : Bool
  normalize_math_delimiters : Bool
  escape_underscores : Bool
deriving DecidableEq

/-- The default configuration of spec §6. -/
def defaultConfig : SanitizeConfig := ⟨true, false, false⟩

/-- Underscore escaping of a prose span: every literal underscore becomes a
backslash-escaped underscore. -/
def escUnderscore (s : List Char) : List Char := pyReplace ['_'] [bsl, '_'] s

/-- Modelled from the spec: the optional underscore-escaping pass of §4.3 is
not implemented by any script under `src/`; per the spec it rewrites every
literal underscore in a PROSE region to an escaped underscore, applied here
through the same backtick-based code-region detection the repository's
delimiter converter uses. -/
def escapeInProse (text : List Char) : List Char :=
  joinSep f3 (mapAlt (fun part => joinSep [bt] (mapAlt escUnderscore false (pySplit [bt] part))) false
    (pySplit f3 text))

/-- Modelled from the spec: the configurable sanitizer of §6.  The repository
ships fixed-configuration variants (the one under `src/` always normalizes
math delimiters); the configuration wrapper itself is taken from the spec,
dispatching to the program's Unicode and delimiter passes. -/
def sanitizeCfg (cfg : SanitizeConfig) (s : List Char) : List Char :=
  let s1 := if cfg.normalize_unicode then applyUnicodeFixes s else s
  let s2 := if cfg.normalize_math_delimiters then convertMathDelimiters s1 else s1
  if cfg.escape_underscores then escapeInProse s2 else s2

/-! ### Basic facts about `begins` -/

theorem begins_iff : ∀ (pat s : List Char), begins pat s = true ↔ ∃ u, s = pat ++ u := by
  intro pat
  induction pat with
  | nil => intro s; simp [begins]
  | cons p ps ih =>
    intro s
    cases s with
    | nil =>
      simp only [begins]
      constructor
      · intro h; cases h
      · rintro ⟨u, hu⟩; cases hu
    | cons c cs =>
      simp only [begins, Bool.and_eq_true, beq_iff_eq]
      rw [ih]
      constructor
      · rintro ⟨rfl, u, rfl⟩; exact ⟨u, rfl⟩
      · rintro ⟨u, hu⟩
        rw [List.cons_append] at hu
        injection hu with h1 h2
        exact ⟨h1.symm, u, h2⟩

theorem begins_length_le {pat s : List Char} (h : begins pat s = true) :
    pat.length ≤ s.length := by
  obtain ⟨u, rfl⟩ := (begins_iff pat s).mp h
  simp

theorem begins_append_elt {pat x : List Char} {a : Char} (ha : a ∉ pat) :
    begins pat (x ++ [a]) = begins pat x := by
  induction pat generalizing x with
  | nil => simp [begins]
  | cons p ps ih =>
    cases x with
    | nil =>
      simp only [List.nil_append, begins]
      cases ps with
      | nil =>
        simp only [begins, Bool.and_true]
        have : ¬ (p == a) = true := by
          simp only [beq_iff_eq]
          rintro rfl
          exact ha (List.mem_singleton.mpr rfl)
        simp [this]
      | cons q qs => simp [begins]
    | cons c cs =>
      simp only [List.cons_append, begins]
      show (p == c && begins ps (cs ++ [a])) = (p == c && begins ps cs)
      rw [ih (fun hm => ha (List.mem_cons_of_mem p hm))]

/-! ### Fuel elimination for the scanners -/

theorem replAux_fuel (p : Char) (ps repl : List Char) :
    ∀ f g s, s.length ≤ f → s.length ≤ g →
      replAux f p ps repl s = replAux g p ps repl s := by
  intro f
  induction f with
  | zero =>
    intro g s hf _
    have hs : s = [] := List.length_eq_zero.mp (Nat.le_zero.mp hf)
    subst hs
    cases g <;> rfl
  | succ f ih =>
    intro g s hf hg
    cases s with
    | nil => cases g <;> rfl
    | cons c rest =>
      cases g with
      | zero => exact absurd hg (by simp)
      | succ g =>
        simp only [replAux]
        by_cases hb : begins (p :: ps) (c :: rest) = true
        · simp only [hb, if_true]
          have hd : (rest.drop ps.length).length ≤ rest.length := by simp
          have hf' : (rest.drop ps.length).length ≤ f :=
            le_trans hd (Nat.le_of_succ_le_succ hf)
          have hg' : (rest.drop ps.length).length ≤ g :=
            le_trans hd (Nat.le_of_succ_le_succ hg)
          rw [ih g (rest.drop ps.length) hf' hg']
        · rw [if_neg hb, if_neg hb,
            ih g rest (Nat.le_of_succ_le_succ hf) (Nat.le_of_succ_le_succ hg)]

theorem splitAux_fuel (p : Char) (ps : List Char) :
    ∀ f g s, s.length ≤ f → s.length ≤ g →
      splitAux f p ps s = splitAux g p ps s := by
  intro f
  induction f with
  | zero =>
    intro g s hf _
    have hs : s = [] := List.length_eq_zero.mp (Nat.le_zero.mp hf)
    subst hs
    cases g <;> rfl
  | succ f ih =>
    intro g s hf hg
    cases s with
    | nil => cases g <;> rfl
    | cons c rest =>
      cases g with
      | zero => exact absurd hg (by simp)
      | succ g =>
        simp only [splitAux]
        by_cases hb : begins (p :: ps) (c :: rest) = true
        · simp only [hb, if_true]
          have hd : (rest.drop ps.length).length ≤ rest.length := by simp
          rw [ih g (rest.drop ps.length) (le_trans hd (Nat.le_of_succ_le_succ hf))
            (le_trans hd (Nat.le_of_succ_le_succ hg))]
        · rw [if_neg hb, if_neg hb,
            ih g rest (Nat.le_of_succ_le_succ hf) (Nat.le_of_succ_le_succ hg)]

/-! ### Unfolding equations for `pyReplace` and `pySplit` -/

theorem pyReplace_nil (pat repl : List Char) : pyReplace pat repl [] = [] := by
  cases pat <;> rfl

theorem pyReplace_cons_pos {p : Char} {ps : List Char} (repl : List Char) {c : Char}
    {rest : List Char} (h : begins (p :: ps) (c :: rest) = true) :
    pyReplace (p :: ps) repl (c :: rest) =
      repl ++ pyReplace (p :: ps) repl (rest.drop ps.length) := by
  show replAux (c :: rest).length p ps repl (c :: rest) = _
  have : (c :: rest).length = rest.length + 1 := by simp
  rw [this, replAux]
  simp only [h, if_true]
  congr 1
  exact replAux_fuel p ps repl rest.length (rest.drop ps.length).length (rest.drop ps.length)
    (by simp) (le_refl _)

theorem pyReplace_cons_neg {p : Char} {ps : List Char} (repl : List Char) {c : Char}
    {rest : List Char} (h : ¬ begins (p :: ps) (c :: rest) = true) :
    pyReplace (p :: ps) repl (c :: rest) = c :: pyReplace (p :: ps) repl rest := by
  show replAux (c :: rest).length p ps repl (c :: rest) = _
  have : (c :: rest).length = rest.length + 1 := by simp
  rw [this, replAux, if_neg h]
  rfl

theorem pySplit_nil (pat : List Char) : pySplit pat [] = [[]] := by
  cases pat <;> rfl

theorem pySplit_cons_pos {p : Char} {ps : List Char} {c : Char} {rest : List Char}
    (h : begins (p :: ps) (c :: rest) = true) :
    pySplit (p :: ps) (c :: rest) = [] :: pySplit (p :: ps) (rest.drop ps.length) := by
  show splitAux (c :: rest).length p ps (c :: rest) = _
  have : (c :: rest).length = rest.length + 1 := by simp
  rw [this, splitAux]
  simp only [h, if_true]
  congr 1
  exact splitAux_fuel p ps rest.length (rest.drop ps.length).length (rest.drop ps.length)
    (by simp) (le_refl _)

theorem pySplit_cons_neg {p : Char} {ps : List Char} {c : Char} {rest : List Char}
    (h : ¬ begins (p :: ps) (c :: rest) = true) :
    pySplit (p :: ps) (c :: rest) =
      match pySplit (p :: ps) rest with
      | [] => [[c]]
      | t :: ts => (c :: t) :: ts := by
  show splitAux (c :: rest).length p ps (c :: rest) = _
  have : (c :: rest).length = rest.length + 1 := by simp
  rw [this, splitAux, if_neg h]
  rfl

theorem pySplit_ne_nil (pat s : List Char) : pySplit pat s ≠ [] := by
  cases pat with
  | nil => simp [pySplit]
  | cons p ps =>
    cases s with
    | nil => simp [pySplit_nil]
    | cons c rest =>
      by_cases hb : begins (p :: ps) (c :: rest) = true
      · rw [pySplit_cons_pos hb]; simp
      · rw [pySplit_cons_neg hb]
        cases pySplit (p :: ps) rest <;> simp

/-! ### Occurrence of a pattern in a text -/

theorem occurs_nil_iff (pat : List Char) : Occurs pat [] ↔ pat = [] := by
  constructor
  · rintro ⟨a, b, hab⟩
    have h := congrArg List.length hab
    simp only [List.length_nil, List.length_append] at h
    exact List.length_eq_zero.mp (by omega)
  · rintro rfl; exact ⟨[], [], rfl⟩

theorem occurs_cons_iff (pat : List Char) (c : Char) (s : List Char) :
    Occurs pat (c :: s) ↔ (∃ u, c :: s = pat ++ u) ∨ Occurs pat s := by
  constructor
  · rintro ⟨a, b, hab⟩
    cases a with
    | nil => exact Or.inl ⟨b, by simpa using hab⟩
    | cons a0 as =>
      rw [List.cons_append, List.cons_append] at hab
      injection hab with _ h2
      exact Or.inr ⟨as, b, h2⟩
  · rintro (⟨u, hu⟩ | ⟨a, b, hab⟩)
    · exact ⟨[], u, by simpa using hu⟩
    · exact ⟨c :: a, b, by simp [hab]⟩

theorem hasSub_iff (pat s : List Char) : hasSub pat s = true ↔ Occurs pat s := by
  induction s with
  | nil =>
    show pat.isEmpty = true ↔ _
    rw [occurs_nil_iff, List.isEmpty_iff]
  | cons c rest ih =>
    show (begins pat (c :: rest) || hasSub pat rest) = true ↔ _
    rw [Bool.or_eq_true, begins_iff, ih, occurs_cons_iff]

instance (pat s : List Char) : Decidable (Occurs pat s) :=
  decidable_of_iff (hasSub pat s = true) (hasSub_iff pat s)

theorem occurs_length_le {pat s : List Char} (h : Occurs pat s) : pat.length ≤ s.length := by
  obtain ⟨a, b, rfl⟩ := h
  simp
  omega

theorem occurs_tail {pat s : List Char} {c : Char} (h : Occurs pat s) :
    Occurs pat (c :: s) :=
  (occurs_cons_iff pat c s).mpr (Or.inr h)

theorem occurs_append_left {pat x : List Char} (y : List Char) (h : Occurs pat x) :
    Occurs pat (x ++ y) := by
  obtain ⟨a, b, rfl⟩ := h
  exact ⟨a, b ++ y, by simp⟩

theorem occurs_append_right {pat y : List Char} (x : List Char) (h : Occurs pat y) :
    Occurs pat (x ++ y) := by
  obtain ⟨a, b, rfl⟩ := h
  exact ⟨x ++ a, b, by simp⟩

theorem occurs_drop {pat s : List Char} {k : Nat} (h : Occurs pat (s.drop k)) :
    Occurs pat s := by
  have := @occurs_append_right pat (s.drop k) (s.take k) h
  rwa [List.take_append_drop] at this

theorem occurs_shift {q x y : List Char} (hq : q ≠ []) (hx : ∀ ch ∈ q, ch ∉ x)
    (h : Occurs q (x ++ y)) : Occurs q y := by
  induction x with
  | nil => simpa using h
  | cons d x' ih =>
    rw [List.cons_append, occurs_cons_iff] at h
    rcases h with ⟨u, hu⟩ | h
    · exfalso
      cases q with
      | nil => exact hq rfl
      | cons q0 qs =>
        rw [List.cons_append] at hu
        injection hu with h1 _
        exact hx q0 (List.mem_cons_self q0 qs) (h1 ▸ List.mem_cons_self d x')
    · exact ih (fun ch hch => fun hmem => hx ch hch (List.mem_cons_of_mem d hmem)) h

/-! ### Behaviour of `pyReplace` -/

theorem pyReplace_no_occurs {p : Char} {ps : List Char} (repl : List Char) :
    ∀ s, ¬ Occurs (p :: ps) s → pyReplace (p :: ps) repl s = s := by
  intro s
  induction s with
  | nil => intro _; exact pyReplace_nil _ _
  | cons c rest ih =>
    intro hocc
    have hb : ¬ begins (p :: ps) (c :: rest) = true := by
      intro hb
      obtain ⟨u, hu⟩ := (begins_iff _ _).mp hb
      exact hocc ⟨[], u, by simpa using hu⟩
    rw [pyReplace_cons_neg repl hb]
    rw [ih (fun h => hocc (occurs_tail h))]

theorem pyReplace_mem {p : Char} {ps repl : List Char} :
    ∀ s, ∀ c ∈ pyReplace (p :: ps) repl s, c ∈ s ∨ c ∈ repl := by
  have H : ∀ n s, s.length ≤ n → ∀ c ∈ pyReplace (p :: ps) repl s, c ∈ s ∨ c ∈ repl := by
    intro n
    induction n with
    | zero =>
      intro s hlen
      have : s = [] := List.length_eq_zero.mp (Nat.le_zero.mp hlen)
      subst this
      rw [pyReplace_nil]
      intro c hc
      cases hc
    | succ n ih =>
      intro s hlen
      cases s with
      | nil =>
        rw [pyReplace_nil]; intro c hc; cases hc
      | cons c0 rest =>
        by_cases hb : begins (p :: ps) (c0 :: rest) = true
        · rw [pyReplace_cons_pos repl hb]
          intro c hc
          rcases List.mem_append.mp hc with hc | hc
          · exact Or.inr hc
          · have hlen' : (rest.drop ps.length).length ≤ n := by
              have : (rest.drop ps.length).length ≤ rest.length := by simp
              have hr : rest.length ≤ n := Nat.le_of_succ_le_succ (by simpa using hlen)
              omega
            rcases ih (rest.drop ps.length) hlen' c hc with hc | hc
            · exact Or.inl (List.mem_cons_of_mem c0 (List.mem_of_mem_drop hc))
            · exact Or.inr hc
        · rw [pyReplace_cons_neg repl hb]
          intro c hc
          rcases List.mem_cons.mp hc with rfl | hc
          · exact Or.inl (List.mem_cons_self c rest)
          · have hlen' : rest.length ≤ n := Nat.le_of_succ_le_succ (by simpa using hlen)
            rcases ih rest hlen' c hc with hc | hc
            · exact Or.inl (List.mem_cons_of_mem c0 hc)
            · exact Or.inr hc
  exact fun s => H s.length s (le_refl _)

theorem pyReplace_ne_nil {p : Char} {ps repl s : List Char} (hs : s ≠ [])
    (hr : repl ≠ []) : pyReplace (p :: ps) repl s ≠ [] := by
  cases s with
  | nil => exact absurd rfl hs
  | cons c rest =>
    by_cases hb : begins (p :: ps) (c :: rest) = true
    · rw [pyReplace_cons_pos repl hb]
      simp [hr]
    · rw [pyReplace_cons_neg repl hb]
      simp

theorem pyReplace_head_pull {p : Char} {ps repl : List Char} (hr : repl ≠ []) :
    ∀ s q, q ≠ [] → (∀ ch ∈ q, ch ∉ repl) →
      (∃ u, pyReplace (p :: ps) repl s = q ++ u) → ∃ v, s = q ++ v := by
  intro s
  induction s with
  | nil =>
    rintro q hq _ ⟨u, hu⟩
    rw [pyReplace_nil] at hu
    cases q with
    | nil => exact absurd rfl hq
    | cons q0 qs => cases hu
  | cons c rest ih =>
    rintro q hq hqr ⟨u, hu⟩
    by_cases hb : begins (p :: ps) (c :: rest) = true
    · rw [pyReplace_cons_pos repl hb] at hu
      cases q with
      | nil => exact absurd rfl hq
      | cons q0 qs =>
        cases repl with
        | nil => exact absurd rfl hr
        | cons r0 rs =>
          rw [List.cons_append] at hu
          injection hu with h1 _
          exact absurd (h1.symm ▸ List.mem_cons_self r0 rs)
            (hqr q0 (List.mem_cons_self q0 qs))
    · rw [pyReplace_cons_neg repl hb] at hu
      cases q with
      | nil => exact absurd rfl hq
      | cons q0 qs =>
        rw [List.cons_append] at hu
        injection hu with h1 h2
        subst h1
        cases qs with
        | nil => exact ⟨rest, rfl⟩
        | cons q1 qs' =>
          obtain ⟨v, hv⟩ := ih (q1 :: qs') (by simp)
            (fun ch hch => hqr ch (List.mem_cons_of_mem c hch)) ⟨u, h2⟩
          exact ⟨v, by rw [List.cons_append, hv]⟩

theorem pyReplace_no_new {p : Char} {ps repl q : List Char} (hr : repl ≠ [])
    (hq : q ≠ []) (hqr : ∀ ch ∈ q, ch ∉ repl) :
    ∀ s, ¬ Occurs q s → ¬ Occurs q (pyReplace (p :: ps) repl s) := by
  have H : ∀ n s, s.length ≤ n → ¬ Occurs q s →
      ¬ Occurs q (pyReplace (p :: ps) repl s) := by
    intro n
    induction n with
    | zero =>
      intro s hlen hocc
      have hs : s = [] := List.length_eq_zero.mp (Nat.le_zero.mp hlen)
      subst hs
      rw [pyReplace_nil]
      exact hocc
    | succ n ih =>
      intro s hlen hocc
      cases s with
      | nil => rw [pyReplace_nil]; exact hocc
      | cons c rest =>
        by_cases hb : begins (p :: ps) (c :: rest) = true
        · rw [pyReplace_cons_pos repl hb]
          intro hoc
          have h2 := occurs_shift hq hqr hoc
          have hlen' : (rest.drop ps.length).length ≤ n := by
            have h3 : (rest.drop ps.length).length ≤ rest.length := by simp
            have h4 : rest.length ≤ n := Nat.le_of_succ_le_succ (by simpa using hlen)
            omega
          exact ih (rest.drop ps.length) hlen'
            (fun h => hocc (occurs_tail (occurs_drop h))) h2
        · rw [pyReplace_cons_neg repl hb]
          intro hoc
          rcases (occurs_cons_iff q c _).mp hoc with ⟨u, hu⟩ | hoc2
          · cases q with
            | nil => exact hq rfl
            | cons q0 qs =>
              rw [List.cons_append] at hu
              injection hu with h1 h2
              subst h1
              cases qs with
              | nil => exact hocc ⟨[], rest, by simp⟩
              | cons q1 qs' =>
                obtain ⟨v, hv⟩ := pyReplace_head_pull hr rest (q1 :: qs') (by simp)
                  (fun ch hch => hqr ch (List.mem_cons_of_mem _ hch)) ⟨u, h2⟩
                exact hocc ⟨[], v, by simp [hv]⟩
          · exact ih rest (Nat.le_of_succ_le_succ (by simpa using hlen))
              (fun h => hocc (occurs_tail h)) hoc2
  exact fun s => H s.length s (le_refl _)

theorem pyReplace_self_free {p1 p2 : Char} {repl : List Char} (hr : repl ≠ [])
    (h1 : p1 ∉ repl) (h2 : p2 ∉ repl) :
    ∀ s, ¬ Occurs [p1, p2] (pyReplace [p1, p2] repl s) := by
  have hqr : ∀ ch ∈ [p1, p2], ch ∉ repl := by
    intro ch hch
    rcases List.mem_cons.mp hch with rfl | hch
    · exact h1
    · rcases List.mem_singleton.mp hch with rfl
      exact h2
  have H : ∀ n s, s.length ≤ n → ¬ Occurs [p1, p2] (pyReplace [p1, p2] repl s) := by
    intro n
    induction n with
    | zero =>
      intro s hlen
      have hs : s = [] := List.length_eq_zero.mp (Nat.le_zero.mp hlen)
      subst hs
      rw [pyReplace_nil]
      intro h
      have := occurs_length_le h
      simp at this
    | succ n ih =>
      intro s hlen
      cases s with
      | nil =>
        rw [pyReplace_nil]
        intro h
        have := occurs_length_le h
        simp at this
      | cons c rest =>
        by_cases hb : begins [p1, p2] (c :: rest) = true
        · rw [pyReplace_cons_pos repl hb]
          intro hoc
          have h3 := occurs_shift (by simp) hqr hoc
          have hlen' : (rest.drop [p2].length).length ≤ n := by
            have h4 : (rest.drop [p2].length).length ≤ rest.length := by simp
            have h5 : rest.length ≤ n := Nat.le_of_succ_le_succ (by simpa using hlen)
            omega
          exact ih (rest.drop [p2].length) hlen' h3
        · rw [pyReplace_cons_neg repl hb]
          intro hoc
          rcases (occurs_cons_iff _ c _).mp hoc with ⟨u, hu⟩ | hoc2
          · rw [List.cons_append] at hu
            injection hu with hh1 hh2
            obtain ⟨v, hv⟩ := pyReplace_head_pull hr rest [p2] (by simp)
              (fun ch hch => by rcases List.mem_singleton.mp hch with rfl; exact h2)
              ⟨u, by simpa using hh2⟩
            apply hb
            rw [begins_iff]
            exact ⟨v, by simp [hh1, hv]⟩
          · exact ih rest (Nat.le_of_succ_le_succ (by simpa using hlen)) hoc2
  exact fun s => H s.length s (le_refl _)

theorem pyReplace_append_elt {p : Char} {ps repl : List Char} {a : Char}
    (ha : a ∉ (p :: ps)) :
    ∀ s, pyReplace (p :: ps) repl (s ++ [a]) = pyReplace (p :: ps) repl s ++ [a] := by
  have H : ∀ n s, s.length ≤ n →
      pyReplace (p :: ps) repl (s ++ [a]) = pyReplace (p :: ps) repl s ++ [a] := by
    intro n
    induction n with
    | zero =>
      intro s hlen
      have hs : s = [] := List.length_eq_zero.mp (Nat.le_zero.mp hlen)
      subst hs
      have hb : ¬ begins (p :: ps) ([] ++ [a]) = true := by
        rw [begins_append_elt ha]
        simp [begins]
      rw [List.nil_append] at hb ⊢
      rw [show ([a] : List Char) = [] ++ [a] from rfl] at hb
      rw [begins_append_elt ha] at hb
      have hb' : ¬ begins (p :: ps) ((a : Char) :: ([] : List Char)) = true := by
        rw [show ((a : Char) :: ([] : List Char)) = [] ++ [a] from rfl, begins_append_elt ha]
        exact hb
      rw [pyReplace_cons_neg repl hb', pyReplace_nil]
      rfl
    | succ n ih =>
      intro s hlen
      cases s with
      | nil =>
        have hb' : ¬ begins (p :: ps) ((a : Char) :: ([] : List Char)) = true := by
          rw [show ((a : Char) :: ([] : List Char)) = [] ++ [a] from rfl, begins_append_elt ha]
          simp [begins]
        rw [List.nil_append, pyReplace_cons_neg repl hb', pyReplace_nil]
        rfl
      | cons c rest =>
        have hbeq : begins (p :: ps) (c :: (rest ++ [a])) = begins (p :: ps) (c :: rest) := by
          rw [show (c :: (rest ++ [a])) = (c :: rest) ++ [a] from rfl, begins_append_elt ha]
        by_cases hb : begins (p :: ps) (c :: rest) = true
        · have hb2 : begins (p :: ps) (c :: (rest ++ [a])) = true := by rw [hbeq]; exact hb
          rw [List.cons_append, pyReplace_cons_pos repl hb2, pyReplace_cons_pos repl hb]
          have hple : ps.length ≤ rest.length := by
            have := begins_length_le hb
            simp at this
            omega
          rw [List.drop_append_of_le_length hple]
          have hlen' : (rest.drop ps.length).length ≤ n := by
            have h3 : (rest.drop ps.length).length ≤ rest.length := by simp
            have h4 : rest.length ≤ n := Nat.le_of_succ_le_succ (by simpa using hlen)
            omega
          rw [ih (rest.drop ps.length) hlen', List.append_assoc]
        · have hb2 : ¬ begins (p :: ps) (c :: (rest ++ [a])) = true := by rw [hbeq]; exact hb
          rw [List.cons_append, pyReplace_cons_neg repl hb2, pyReplace_cons_neg repl hb,
            ih rest (Nat.le_of_succ_le_succ (by simpa using hlen))]
          rfl
  exact fun s => H s.length s (le_refl _)

theorem mapChars_append (g : Char → List Char) :
    ∀ x y, mapChars g (x ++ y) = mapChars g x ++ mapChars g y := by
  intro x y
  induction x with
  | nil => rfl
  | cons c rest ih => simp [mapChars, ih]

theorem mapChars_mem {g : Char → List Char} :
    ∀ s c, c ∈ mapChars g s → ∃ d ∈ s, c ∈ g d := by
  intro s
  induction s with
  | nil => intro c hc; cases hc
  | cons d rest ih =>
    intro c hc
    rcases List.mem_append.mp hc with hc | hc
    · exact ⟨d, List.mem_cons_self d rest, hc⟩
    · obtain ⟨d', hd', hc'⟩ := ih c hc
      exact ⟨d', List.mem_cons_of_mem d hd', hc'⟩

theorem mapChars_congr_id {g : Char → List Char} :
    ∀ s, (∀ c ∈ s, g c = [c]) → mapChars g s = s := by
  intro s
  induction s with
  | nil => intro _; rfl
  | cons c rest ih =>
    intro h
    show g c ++ mapChars g rest = c :: rest
    rw [h c (List.mem_cons_self c rest), ih (fun d hd => h d (List.mem_cons_of_mem c hd))]
    rfl

theorem pyReplace_single (k : Char) (r : List Char) :
    ∀ s, pyReplace [k] r s = mapChars (fun c => if c = k then r else [c]) s := by
  intro s
  induction s with
  | nil => rw [pyReplace_nil]; rfl
  | cons c rest ih =>
    by_cases hc : c = k
    · subst hc
      have hb : begins [c] (c :: rest) = true := by simp [begins]
      rw [pyReplace_cons_pos r hb]
      show r ++ pyReplace [c] r rest = _
      rw [ih]
      simp [mapChars]
    · have hb : ¬ begins [k] (c :: rest) = true := by
        simp only [begins, Bool.and_eq_true, beq_iff_eq]
        rintro ⟨rfl, _⟩
        exact hc rfl
      rw [pyReplace_cons_neg r hb, ih]
      simp [mapChars, hc]

/-! ### Facts about `lastChar` and `appendLast` -/

theorem lastChar_cons {t : List Char} (c : Char) (ht : t ≠ []) :
    lastChar (c :: t) = lastChar t := by
  cases t with
  | nil => exact absurd rfl ht
  | cons d rest => rfl

theorem lastChar_append_elt (s : List Char) (a : Char) :
    lastChar (s ++ [a]) = some a := by
  induction s with
  | nil => rfl
  | cons c rest ih =>
    rw [List.cons_append, lastChar_cons c (by simp), ih]

theorem lastChar_eq_some {s : List Char} {a : Char} :
    lastChar s = some a ↔ ∃ s', s = s' ++ [a] := by
  constructor
  · intro h
    induction s with
    | nil => cases h
    | cons c rest ih =>
      cases rest with
      | nil =>
        injection h with h
        exact ⟨[], by rw [h]; rfl⟩
      | cons d rest' =>
        rw [lastChar_cons c (by simp)] at h
        obtain ⟨s', hs'⟩ := ih h
        exact ⟨c :: s', by rw [List.cons_append, hs']⟩
  · rintro ⟨s', rfl⟩
    exact lastChar_append_elt s' a

theorem appendLast_cons {ts : List (List Char)} (a : Char) (t : List Char) (h : ts ≠ []) :
    appendLast a (t :: ts) = t :: appendLast a ts := by
  cases ts with
  | nil => exact absurd rfl h
  | cons q rest => rfl

/-! ### Facts about `joinSep` -/

theorem joinSep_cons_cons (sep p q : List Char) (rest : List (List Char)) :
    joinSep sep (p :: q :: rest) = p ++ sep ++ joinSep sep (q :: rest) := rfl

theorem joinSep_head_cons (sep : List Char) (c : Char) (t : List Char)
    (ts : List (List Char)) :
    joinSep sep ((c :: t) :: ts) = c :: joinSep sep (t :: ts) := by
  cases ts with
  | nil => rfl
  | cons q rest => simp [joinSep_cons_cons]

theorem joinSep_head_ex (sep t : List Char) (ts : List (List Char)) :
    ∃ r, joinSep sep (t :: ts) = t ++ r := by
  cases ts with
  | nil => exact ⟨[], by simp [joinSep]⟩
  | cons q rest => exact ⟨sep ++ joinSep sep (q :: rest), by simp [joinSep_cons_cons]⟩

theorem joinSep_appendLast (sep : List Char) (a : Char) :
    ∀ ps, ps ≠ [] → joinSep sep (appendLast a ps) = joinSep sep ps ++ [a] := by
  intro ps
  induction ps with
  | nil => intro h; exact absurd rfl h
  | cons t ts ih =>
    intro _
    cases ts with
    | nil => simp [appendLast, joinSep]
    | cons q rest =>
      rw [appendLast_cons a t (by simp)]
      obtain ⟨u, us, hus⟩ : ∃ u us, appendLast a (q :: rest) = u :: us := by
        cases rest with
        | nil => exact ⟨q ++ [a], [], rfl⟩
        | cons r rs => exact ⟨q, appendLast a (r :: rs), rfl⟩
      rw [hus, joinSep_cons_cons, ← hus, ih (by simp), joinSep_cons_cons]
      simp [List.append_assoc]

theorem joinSep_mem_of {c : Char} {q : List Char} (sep : List Char) :
    ∀ ps, q ∈ ps → c ∈ q → c ∈ joinSep sep ps := by
  intro ps
  induction ps with
  | nil => intro h; cases h
  | cons t ts ih =>
    intro hq hc
    cases ts with
    | nil =>
      rcases List.mem_singleton.mp hq with rfl
      simpa [joinSep] using hc
    | cons u rest =>
      rw [joinSep_cons_cons]
      rcases List.mem_cons.mp hq with rfl | hq
      · simp [hc]
      · simp [ih hq hc]

theorem joinSep_mem {c : Char} (sep : List Char) :
    ∀ ps, c ∈ joinSep sep ps → c ∈ sep ∨ ∃ q ∈ ps, c ∈ q := by
  intro ps
  induction ps with
  | nil => intro h; cases h
  | cons t ts ih =>
    intro hc
    cases ts with
    | nil =>
      exact Or.inr ⟨t, List.mem_singleton.mpr rfl, by simpa [joinSep] using hc⟩
    | cons u rest =>
      rw [joinSep_cons_cons] at hc
      rcases List.mem_append.mp hc with hc | hc
      · rcases List.mem_append.mp hc with hc | hc
        · exact Or.inr ⟨t, List.mem_cons_self t _, hc⟩
        · exact Or.inl hc
      · rcases ih hc with hc | ⟨q, hq, hcq⟩
        · exact Or.inl hc
        · exact Or.inr ⟨q, List.mem_cons_of_mem t hq, hcq⟩

/-! ### Structure of `pySplit` -/

theorem joinSep_pySplit {p : Char} {ps : List Char} :
    ∀ s, joinSep (p :: ps) (pySplit (p :: ps) s) = s := by
  have H : ∀ n s, s.length ≤ n → joinSep (p :: ps) (pySplit (p :: ps) s) = s := by
    intro n
    induction n with
    | zero =>
      intro s hlen
      have hs : s = [] := List.length_eq_zero.mp (Nat.le_zero.mp hlen)
      subst hs
      rw [pySplit_nil]
      rfl
    | succ n ih =>
      intro s hlen
      cases s with
      | nil => rw [pySplit_nil]; rfl
      | cons c rest =>
        by_cases hb : begins (p :: ps) (c :: rest) = true
        · rw [pySplit_cons_pos hb]
          have hne := pySplit_ne_nil (p :: ps) (rest.drop ps.length)
          obtain ⟨t, ts, hts⟩ : ∃ t ts, pySplit (p :: ps) (rest.drop ps.length) = t :: ts := by
            cases hx : pySplit (p :: ps) (rest.drop ps.length) with
            | nil => exact absurd hx hne
            | cons t ts => exact ⟨t, ts, rfl⟩
          rw [hts, joinSep_cons_cons, ← hts]
          have hlen' : (rest.drop ps.length).length ≤ n := by
            have h3 : (rest.drop ps.length).length ≤ rest.length := by simp
            have h4 : rest.length ≤ n := Nat.le_of_succ_le_succ (by simpa using hlen)
            omega
          rw [ih (rest.drop ps.length) hlen']
          obtain ⟨u, hu⟩ := (begins_iff _ _).mp hb
          have h5 := congrArg (List.drop (p :: ps).length) hu
          rw [List.drop_left] at h5
          have hud : u = rest.drop ps.length := by
            rw [← h5]
            simp [List.length_cons]
          rw [hu, hud]
          simp
        · rw [pySplit_cons_neg hb]
          have hne := pySplit_ne_nil (p :: ps) rest
          obtain ⟨t, ts, hts⟩ : ∃ t ts, pySplit (p :: ps) rest = t :: ts := by
            cases hx : pySplit (p :: ps) rest with
            | nil => exact absurd hx hne
            | cons t ts => exact ⟨t, ts, rfl⟩
          rw [hts]
          show joinSep (p :: ps) ((c :: t) :: ts) = c :: rest
          rw [joinSep_head_cons, ← hts, ih rest (Nat.le_of_succ_le_succ (by simpa using hlen))]
  exact fun s => H s.length s (le_refl _)

theorem pySplit_parts_no_occurs {p : Char} {ps : List Char} :
    ∀ s, ∀ q ∈ pySplit (p :: ps) s, ¬ Occurs (p :: ps) q := by
  have H : ∀ n s, s.length ≤ n → ∀ q ∈ pySplit (p :: ps) s, ¬ Occurs (p :: ps) q := by
    intro n
    induction n with
    | zero =>
      intro s hlen q hq
      have hs : s = [] := List.length_eq_zero.mp (Nat.le_zero.mp hlen)
      subst hs
      rw [pySplit_nil] at hq
      rcases List.mem_singleton.mp hq with rfl
      intro h
      have := occurs_length_le h
      simp at this
    | succ n ih =>
      intro s hlen q hq
      cases s with
      | nil =>
        rw [pySplit_nil] at hq
        rcases List.mem_singleton.mp hq with rfl
        intro h
        have := occurs_length_le h
        simp at this
      | cons c rest =>
        by_cases hb : begins (p :: ps) (c :: rest) = true
        · rw [pySplit_cons_pos hb] at hq
          rcases List.mem_cons.mp hq with rfl | hq
          · intro h
            have := occurs_length_le h
            simp at this
          · have hlen' : (rest.drop ps.length).length ≤ n := by
              have h3 : (rest.drop ps.length).length ≤ rest.length := by simp
              have h4 : rest.length ≤ n := Nat.le_of_succ_le_succ (by simpa using hlen)
              omega
            exact ih (rest.drop ps.length) hlen' q hq
        · rw [pySplit_cons_neg hb] at hq
          have hlen' : rest.length ≤ n := Nat.le_of_succ_le_succ (by simpa using hlen)
          obtain ⟨t, ts, hts⟩ : ∃ t ts, pySplit (p :: ps) rest = t :: ts := by
            cases hx : pySplit (p :: ps) rest with
            | nil => exact absurd hx (pySplit_ne_nil _ _)
            | cons t ts => exact ⟨t, ts, rfl⟩
          rw [hts] at hq
          rcases List.mem_cons.mp hq with rfl | hq
          · intro hoc
            rcases (occurs_cons_iff _ c t).mp hoc with ⟨u, hu⟩ | hoc2
            · obtain ⟨r, hr⟩ := joinSep_head_ex (p :: ps) t ts
              apply hb
              rw [begins_iff]
              refine ⟨u ++ r, ?_⟩
              have hrest : rest = t ++ r := by
                rw [← joinSep_pySplit rest, hts, hr]
              rw [hrest, show (c :: (t ++ r)) = (c :: t) ++ r from by simp, hu]
              simp
            · exact ih rest hlen' t (hts ▸ List.mem_cons_self t ts) hoc2
          · exact ih rest hlen' q (hts ▸ List.mem_cons_of_mem t hq)
  exact fun s => H s.length s (le_refl _)

theorem pySplit_no_occurs {p : Char} {ps : List Char} :
    ∀ s, ¬ Occurs (p :: ps) s → pySplit (p :: ps) s = [s] := by
  intro s
  induction s with
  | nil => intro _; exact pySplit_nil _
  | cons c rest ih =>
    intro hocc
    have hb : ¬ begins (p :: ps) (c :: rest) = true := by
      intro hb
      obtain ⟨u, hu⟩ := (begins_iff _ _).mp hb
      exact hocc ⟨[], u, by simpa using hu⟩
    rw [pySplit_cons_neg hb, ih (fun h => hocc (occurs_tail h))]

theorem occurs_single_iff (k : Char) (s : List Char) : Occurs [k] s ↔ k ∈ s := by
  constructor
  · rintro ⟨a, b, rfl⟩
    simp
  · intro h
    obtain ⟨x, y, rfl⟩ := List.append_of_mem h
    exact ⟨x, y, by simp⟩

theorem pySplit_mem_mem {p : Char} {ps s q : List Char} {c : Char}
    (hq : q ∈ pySplit (p :: ps) s) (hc : c ∈ q) : c ∈ s := by
  have h := @joinSep_pySplit p ps s
  rw [← h]
  exact joinSep_mem_of (p :: ps) (pySplit (p :: ps) s) hq hc

theorem pySplit_head_nil {p : Char} {ps s : List Char} {ts : List (List Char)}
    (h : pySplit (p :: ps) s = [] :: ts) (hts : ts ≠ []) :
    begins (p :: ps) s = true := by
  cases s with
  | nil =>
    rw [pySplit_nil] at h
    injection h with _ h2
    exact absurd h2.symm hts
  | cons c rest =>
    by_cases hb : begins (p :: ps) (c :: rest) = true
    · exact hb
    · exfalso
      rw [pySplit_cons_neg hb] at h
      cases hx : pySplit (p :: ps) rest with
      | nil => exact pySplit_ne_nil _ _ hx
      | cons t tss =>
        rw [hx] at h
        injection h with h1 _
        cases h1

theorem pySplit_f3_dropLast :
    ∀ s, ∀ q ∈ (pySplit f3 s).dropLast, lastChar q ≠ some bt := by
  have H : ∀ n s, s.length ≤ n → ∀ q ∈ (pySplit f3 s).dropLast, lastChar q ≠ some bt := by
    intro n
    induction n with
    | zero =>
      intro s hlen q hq
      have hs : s = [] := List.length_eq_zero.mp (Nat.le_zero.mp hlen)
      subst hs
      rw [pySplit_nil] at hq
      simp at hq
    | succ n ih =>
      intro s hlen q hq
      cases s with
      | nil =>
        rw [pySplit_nil] at hq
        simp at hq
      | cons c rest =>
        by_cases hb : begins f3 (c :: rest) = true
        · rw [show (f3 : List Char) = bt :: [bt, bt] from rfl] at hb
          rw [show pySplit f3 (c :: rest) = pySplit (bt :: [bt, bt]) (c :: rest) from rfl,
            pySplit_cons_pos hb] at hq
          obtain ⟨t, ts, hts⟩ : ∃ t ts,
              pySplit (bt :: [bt, bt]) (rest.drop [bt, bt].length) = t :: ts := by
            cases hx : pySplit (bt :: [bt, bt]) (rest.drop [bt, bt].length) with
            | nil => exact absurd hx (pySplit_ne_nil _ _)
            | cons t ts => exact ⟨t, ts, rfl⟩
          rw [hts] at hq
          have hq' : q ∈ ([] : List Char) :: (t :: ts).dropLast := by
            simpa [List.dropLast] using hq
          have hlen' : (rest.drop [bt, bt].length).length ≤ n := by
            have h3 : (rest.drop [bt, bt].length).length ≤ rest.length := by simp
            have h4 : rest.length ≤ n := Nat.le_of_succ_le_succ (by simpa using hlen)
            omega
          rcases List.mem_cons.mp hq' with rfl | hq'
          · intro h; cases h
          · refine ih (rest.drop [bt, bt].length) hlen' q ?_
            rw [show pySplit f3 (rest.drop [bt, bt].length) =
              pySplit (bt :: [bt, bt]) (rest.drop [bt, bt].length) from rfl, hts]
            exact hq'
        · rw [show pySplit f3 (c :: rest) = pySplit (bt :: [bt, bt]) (c :: rest) from rfl,
            pySplit_cons_neg (by exact hb)] at hq
          obtain ⟨t, ts, hts⟩ : ∃ t ts, pySplit (bt :: [bt, bt]) rest = t :: ts := by
            cases hx : pySplit (bt :: [bt, bt]) rest with
            | nil => exact absurd hx (pySplit_ne_nil _ _)
            | cons t ts => exact ⟨t, ts, rfl⟩
          rw [hts] at hq
          have hlen' : rest.length ≤ n := Nat.le_of_succ_le_succ (by simpa using hlen)
          cases ts with
          | nil => simp at hq
          | cons u us =>
            have hq' : q = c :: t ∨ q ∈ (u :: us).dropLast := by
              simpa [List.dropLast] using hq
            rcases hq' with rfl | hq'
            · cases t with
              | nil =>
                intro hlast
                injection hlast with hlast
                subst hlast
                have hbr : begins (bt :: [bt, bt]) rest = true :=
                  pySplit_head_nil hts (by simp)
                obtain ⟨w, hw⟩ := (begins_iff _ _).mp hbr
                apply hb
                rw [begins_iff]
                exact ⟨bt :: w, by rw [hw]; simp [f3]⟩
              | cons t0 t' =>
                rw [lastChar_cons c (by simp)]
                have ht : (t0 :: t') ∈ (pySplit (bt :: [bt, bt]) rest).dropLast := by
                  rw [hts]
                  simp [List.dropLast]
                exact ih rest hlen' (t0 :: t') ht
            · have hmem : q ∈ (pySplit (bt :: [bt, bt]) rest).dropLast := by
                rw [hts]
                simp [List.dropLast]
                right
                simpa using hq'
              exact ih rest hlen' q hmem
  exact fun s => H s.length s (le_refl _)

theorem pySplit_f3_boundary :
    ∀ (p T : List Char), ¬ Occurs f3 p → lastChar p ≠ some bt →
      pySplit f3 (p ++ f3 ++ T) = p :: pySplit f3 T := by
  intro p
  induction p with
  | nil =>
    intro T _ _
    have hb : begins (bt :: [bt, bt]) (bt :: (bt :: bt :: T)) = true := by
      rw [begins_iff]
      exact ⟨T, by simp [f3]⟩
    show pySplit (bt :: [bt, bt]) ([] ++ (bt :: bt :: bt :: []) ++ T) = _
    rw [List.nil_append]
    rw [show ((bt :: bt :: bt :: []) ++ T : List Char) = bt :: (bt :: bt :: T) from by simp]
    rw [pySplit_cons_pos hb]
    simp
    rfl
  | cons c p' ih =>
    intro T hocc hlast
    have hbF : ¬ begins f3 (c :: (p' ++ f3 ++ T)) = true := by
      intro h
      obtain ⟨u, hu⟩ := (begins_iff _ _).mp h
      rw [show (f3 : List Char) = bt :: bt :: bt :: [] from rfl] at hu
      rw [List.cons_append] at hu
      injection hu with h1 h2
      subst h1
      cases p' with
      | nil =>
        exact hlast rfl
      | cons d p'' =>
        rw [List.cons_append, List.cons_append] at h2
        injection h2 with h3 h4
        subst h3
        cases p'' with
        | nil => exact hlast rfl
        | cons d2 p3 =>
          rw [List.cons_append, List.cons_append] at h4
          injection h4 with h5 _
          subst h5
          exact hocc ⟨[], p3, by simp [f3]⟩
    have hgoal : pySplit f3 ((c :: p') ++ f3 ++ T) =
        pySplit (bt :: [bt, bt]) (c :: (p' ++ f3 ++ T)) := by
      rfl
    rw [hgoal, pySplit_cons_neg (by exact hbF)]
    have hrec : pySplit (bt :: [bt, bt]) (p' ++ f3 ++ T) = p' :: pySplit f3 T := by
      have h1 : ¬ Occurs f3 p' := fun h => hocc (occurs_tail h)
      have h2 : lastChar p' ≠ some bt := by
        cases p' with
        | nil => intro h; cases h
        | cons d p'' =>
          rw [← lastChar_cons c (by simp)]
          exact hlast
      exact ih T h1 h2
    rw [hrec]

theorem pySplit_single_boundary (k : Char) :
    ∀ (p T : List Char), k ∉ p →
      pySplit [k] (p ++ [k] ++ T) = p :: pySplit [k] T := by
  intro p
  induction p with
  | nil =>
    intro T _
    have hb : begins (k :: ([] : List Char)) (k :: T) = true := by
      rw [begins_iff]
      exact ⟨T, rfl⟩
    rw [List.nil_append, show (([k] : List Char) ++ T) = k :: T from rfl,
      pySplit_cons_pos hb]
    simp
  | cons c p' ih =>
    intro T hk
    have hb : ¬ begins (k :: ([] : List Char)) (c :: (p' ++ [k] ++ T)) = true := by
      intro h
      obtain ⟨u, hu⟩ := (begins_iff _ _).mp h
      injection hu with h1 _
      exact hk (h1 ▸ List.mem_cons_self c p')
    rw [show ((c :: p') ++ [k] ++ T : List Char) = c :: (p' ++ [k] ++ T) from by simp,
      show pySplit [k] (c :: (p' ++ [k] ++ T)) =
        pySplit (k :: ([] : List Char)) (c :: (p' ++ [k] ++ T)) from rfl,
      pySplit_cons_neg hb]
    have hrec : pySplit (k :: ([] : List Char)) (p' ++ [k] ++ T) = p' :: pySplit [k] T :=
      ih T (fun h => hk (List.mem_cons_of_mem c h))
    rw [hrec]

theorem pySplit_joinSep_f3 :
    ∀ qs : List (List Char), qs ≠ [] → (∀ q ∈ qs, ¬ Occurs f3 q) →
      (∀ q ∈ qs.dropLast, lastChar q ≠ some bt) →
      pySplit f3 (joinSep f3 qs) = qs := by
  intro qs
  induction qs with
  | nil => intro h; exact absurd rfl h
  | cons q qs' ih =>
    intro _ hocc hlast
    cases qs' with
    | nil =>
      show pySplit f3 (joinSep f3 [q]) = [q]
      rw [show joinSep f3 [q] = q from rfl]
      exact pySplit_no_occurs q (hocc q (List.mem_singleton.mpr rfl))
    | cons q1 rest =>
      rw [joinSep_cons_cons]
      rw [List.append_assoc, ← List.append_assoc q f3 (joinSep f3 (q1 :: rest))]
      rw [pySplit_f3_boundary q (joinSep f3 (q1 :: rest))
        (hocc q (List.mem_cons_self q _))
        (hlast q (by simp [List.dropLast]))]
      rw [ih (by simp)
        (fun x hx => hocc x (List.mem_cons_of_mem q hx))
        (fun x hx => hlast x (by simp [List.dropLast]; right; simpa using hx))]

theorem pySplit_joinSep_single (k : Char) :
    ∀ qs : List (List Char), qs ≠ [] → (∀ q ∈ qs, k ∉ q) →
      pySplit [k] (joinSep [k] qs) = qs := by
  intro qs
  induction qs with
  | nil => intro h; exact absurd rfl h
  | cons q qs' ih =>
    intro _ hocc
    cases qs' with
    | nil =>
      show pySplit [k] (joinSep [k] [q]) = [q]
      rw [show joinSep [k] [q] = q from rfl]
      have : ¬ Occurs [k] q := by
        rw [occurs_single_iff]
        exact hocc q (List.mem_singleton.mpr rfl)
      exact pySplit_no_occurs q this
    | cons q1 rest =>
      rw [joinSep_cons_cons]
      rw [List.append_assoc, ← List.append_assoc q [k] (joinSep [k] (q1 :: rest))]
      rw [pySplit_single_boundary k q (joinSep [k] (q1 :: rest))
        (hocc q (List.mem_cons_self q _))]
      rw [ih (by simp) (fun x hx => hocc x (List.mem_cons_of_mem q hx))]

theorem pySplit_append_elt {p : Char} {ps : List Char} {a : Char}
    (ha : a ∉ (p :: ps)) :
    ∀ s, pySplit (p :: ps) (s ++ [a]) = appendLast a (pySplit (p :: ps) s) := by
  have H : ∀ n s, s.length ≤ n →
      pySplit (p :: ps) (s ++ [a]) = appendLast a (pySplit (p :: ps) s) := by
    intro n
    induction n with
    | zero =>
      intro s hlen
      have hs : s = [] := List.length_eq_zero.mp (Nat.le_zero.mp hlen)
      subst hs
      have hb : ¬ begins (p :: ps) ((a : Char) :: ([] : List Char)) = true := by
        rw [show ((a : Char) :: ([] : List Char)) = [] ++ [a] from rfl, begins_append_elt ha]
        simp [begins]
      rw [List.nil_append, pySplit_cons_neg hb, pySplit_nil]
      rfl
    | succ n ih =>
      intro s hlen
      cases s with
      | nil =>
        have hb : ¬ begins (p :: ps) ((a : Char) :: ([] : List Char)) = true := by
          rw [show ((a : Char) :: ([] : List Char)) = [] ++ [a] from rfl,
            begins_append_elt ha]
          simp [begins]
        rw [List.nil_append, pySplit_cons_neg hb, pySplit_nil]
        rfl
      | cons c rest =>
        have hbeq : begins (p :: ps) (c :: (rest ++ [a])) = begins (p :: ps) (c :: rest) := by
          rw [show (c :: (rest ++ [a])) = (c :: rest) ++ [a] from rfl, begins_append_elt ha]
        by_cases hb : begins (p :: ps) (c :: rest) = true
        · have hb2 : begins (p :: ps) (c :: (rest ++ [a])) = true := by rw [hbeq]; exact hb
          rw [List.cons_append, pySplit_cons_pos hb2, pySplit_cons_pos hb]
          have hple : ps.length ≤ rest.length := by
            have := begins_length_le hb
            simp at this
            omega
          rw [List.drop_append_of_le_length hple]
          have hlen' : (rest.drop ps.length).length ≤ n := by
            have h3 : (rest.drop ps.length).length ≤ rest.length := by simp
            have h4 : rest.length ≤ n := Nat.le_of_succ_le_succ (by simpa using hlen)
            omega
          rw [ih (rest.drop ps.length) hlen']
          rw [appendLast_cons a [] (pySplit_ne_nil _ _)]
        · have hb2 : ¬ begins (p :: ps) (c :: (rest ++ [a])) = true := by rw [hbeq]; exact hb
          rw [List.cons_append, pySplit_cons_neg hb2, pySplit_cons_neg hb,
            ih rest (Nat.le_of_succ_le_succ (by simpa using hlen))]
          obtain ⟨t, ts, hts⟩ : ∃ t ts, pySplit (p :: ps) rest = t :: ts := by
            cases hx : pySplit (p :: ps) rest with
            | nil => exact absurd hx (pySplit_ne_nil _ _)
            | cons t ts => exact ⟨t, ts, rfl⟩
          rw [hts]
          cases ts with
          | nil => rfl
          | cons u us =>
            rw [appendLast_cons a t (by simp)]
            rfl
  exact fun s => H s.length s (le_refl _)

/-! ### The backtick skeleton `collapse` -/

theorem collapse_nil : collapse [] = [] := rfl

theorem collapse_cons_bt (rest : List Char) : collapse (bt :: rest) = bt :: collapse rest := by
  simp [collapse]

theorem collapse_cons_eq (c : Char) (rest : List Char) :
    collapse (c :: rest) =
      if c = bt then bt :: collapse rest
      else
        match collapse rest with
        | [] => ['x']
        | d :: ds => if d = bt then 'x' :: d :: ds else d :: ds := by
  rw [collapse]

theorem collapse_ne_nil : ∀ s : List Char, s ≠ [] → collapse s ≠ [] := by
  intro s hs
  cases s with
  | nil => exact absurd rfl hs
  | cons c rest =>
    by_cases hc : c = bt
    · subst hc
      rw [collapse_cons_bt]
      simp
    · show collapse (c :: rest) ≠ []
      simp only [collapse, if_neg hc]
      cases hx : collapse rest with
      | nil => simp
      | cons d ds =>
        by_cases hd : d = bt <;> simp [hd]

theorem collapse_head_bt : ∀ s : List Char,
    (collapse s).head? = some bt ↔ s.head? = some bt := by
  intro s
  cases s with
  | nil => simp [collapse_nil]
  | cons c rest =>
    by_cases hc : c = bt
    · subst hc
      rw [collapse_cons_bt]
      simp
    · show (collapse (c :: rest)).head? = some bt ↔ _
      simp only [collapse, if_neg hc]
      have hx' : ('x' : Char) ≠ bt := by decide
      cases hx : collapse rest with
      | nil => simp [hx', hc]
      | cons d ds =>
        by_cases hd : d = bt
        · subst hd
          simp [hx', hc]
        · simp [hd, hc]

theorem collapse_append_bt : ∀ (a r : List Char),
    collapse (a ++ bt :: r) = collapse a ++ bt :: collapse r := by
  intro a r
  induction a with
  | nil =>
    rw [List.nil_append, collapse_cons_bt, collapse_nil, List.nil_append]
  | cons c a' ih =>
    by_cases hc : c = bt
    · subst hc
      rw [List.cons_append, collapse_cons_bt, collapse_cons_bt, ih, List.cons_append]
    · rw [List.cons_append]
      show collapse (c :: (a' ++ bt :: r)) = collapse (c :: a') ++ bt :: collapse r
      simp only [collapse, if_neg hc]
      rw [ih]
      cases hx : collapse a' with
      | nil =>
        simp
      | cons d ds =>
        by_cases hd : d = bt
        · subst hd
          simp
        · simp [hd]

theorem collapse_no_bt : ∀ s : List Char, bt ∉ s → s ≠ [] → collapse s = ['x'] := by
  intro s
  induction s with
  | nil => intro _ h; exact absurd rfl h
  | cons c rest ih =>
    intro hbt _
    have hc : c ≠ bt := fun h => hbt (h ▸ List.mem_cons_self c rest)
    rw [collapse_cons_eq, if_neg hc]
    cases rest with
    | nil => rw [collapse_nil]
    | cons r0 r' =>
      rw [ih (fun h => hbt (List.mem_cons_of_mem c h)) (by simp)]
      have hxbt : ('x' : Char) ≠ bt := by decide
      show (if ('x' : Char) = bt then 'x' :: 'x' :: [] else ['x']) = ['x']
      rw [if_neg hxbt]

theorem collapse_last_bt : ∀ s : List Char,
    lastChar (collapse s) = some bt ↔ lastChar s = some bt := by
  intro s
  induction s with
  | nil => simp [collapse_nil, lastChar]
  | cons c rest ih =>
    cases rest with
    | nil =>
      by_cases hc : c = bt
      · subst hc
        rw [collapse_cons_bt, collapse_nil]
      · show lastChar (collapse [c]) = some bt ↔ _
        simp only [collapse, if_neg hc, collapse_nil]
        have hx' : ('x' : Char) ≠ bt := by decide
        simp [lastChar, hx', hc]
    | cons r0 r' =>
      rw [lastChar_cons c (by simp)]
      by_cases hc : c = bt
      · subst hc
        rw [collapse_cons_bt,
          lastChar_cons bt (collapse_ne_nil (r0 :: r') (by simp))]
        exact ih
      · rw [collapse_cons_eq, if_neg hc]
        cases hx : collapse (r0 :: r') with
        | nil => exact absurd hx (collapse_ne_nil (r0 :: r') (by simp))
        | cons d ds =>
          show lastChar (if d = bt then 'x' :: d :: ds else d :: ds) = some bt ↔ _
          by_cases hd : d = bt
          · subst hd
            rw [if_pos rfl, lastChar_cons ('x') (by simp), ← hx]
            exact ih
          · rw [if_neg hd, ← hx]
            exact ih

theorem collapse_occurs_f3_mp {s : List Char} (h : Occurs f3 s) :
    Occurs f3 (collapse s) := by
  obtain ⟨a, b, rfl⟩ := h
  rw [show (a ++ f3 ++ b : List Char) = a ++ bt :: (bt :: bt :: b) from by simp [f3]]
  rw [collapse_append_bt, collapse_cons_bt, collapse_cons_bt]
  exact ⟨collapse a, collapse b, by simp [f3]⟩

theorem collapse_occurs_f3_mpr : ∀ s : List Char, Occurs f3 (collapse s) → Occurs f3 s := by
  intro s
  induction s with
  | nil =>
    rw [collapse_nil]
    intro h
    have := occurs_length_le h
    simp [f3] at this
  | cons c rest ih =>
    intro h
    by_cases hc : c = bt
    · subst hc
      rw [collapse_cons_bt] at h
      rcases (occurs_cons_iff _ bt _).mp h with ⟨u, hu⟩ | h2
      · rw [show (f3 : List Char) = bt :: bt :: bt :: [] from rfl] at hu
        rw [List.cons_append] at hu
        injection hu with _ h3
        have hh1 : (collapse rest).head? = some bt := by rw [h3]; rfl
        obtain ⟨rest1, hrest1⟩ : ∃ r1, rest = bt :: r1 := by
          have := (collapse_head_bt rest).mp hh1
          cases rest with
          | nil => cases this
          | cons x xs =>
            injection this with hx
            exact ⟨xs, by rw [hx]⟩
        subst hrest1
        rw [collapse_cons_bt] at h3
        injection h3 with _ h4
        have hh2 : (collapse rest1).head? = some bt := by rw [h4]; rfl
        obtain ⟨rest2, hrest2⟩ : ∃ r2, rest1 = bt :: r2 := by
          have := (collapse_head_bt rest1).mp hh2
          cases rest1 with
          | nil => cases this
          | cons x xs =>
            injection this with hx
            exact ⟨xs, by rw [hx]⟩
        subst hrest2
        exact ⟨[], rest2, by simp [f3]⟩
      · exact occurs_tail (ih h2)
    · revert h
      rw [collapse_cons_eq, if_neg hc]
      cases hx : collapse rest with
      | nil =>
        intro h
        have := occurs_length_le h
        simp [f3] at this
      | cons d ds =>
        show Occurs f3 (if d = bt then 'x' :: d :: ds else d :: ds) → _
        by_cases hd : d = bt
        · subst hd
          rw [if_pos rfl]
          intro h
          rcases (occurs_cons_iff _ 'x' _).mp h with ⟨u, hu⟩ | h2
          · rw [show (f3 : List Char) = bt :: bt :: bt :: [] from rfl, List.cons_append] at hu
            injection hu with h1 _
            exact absurd h1 (by decide)
          · rw [← hx] at h2
            exact occurs_tail (ih h2)
        · rw [if_neg hd, ← hx]
          intro h
          exact occurs_tail (ih h)

/-! ### Facts about `mapAlt` -/

theorem mapAlt_mem {g : List Char → List Char} :
    ∀ (ps : List (List Char)) (b : Bool) (q : List Char), q ∈ mapAlt g b ps →
      ∃ x ∈ ps, q = x ∨ q = g x := by
  intro ps
  induction ps with
  | nil => intro b q h; cases h
  | cons p rest ih =>
    intro b q h
    rcases List.mem_cons.mp h with rfl | h
    · cases b
      · exact ⟨p, List.mem_cons_self p rest, Or.inr rfl⟩
      · exact ⟨p, List.mem_cons_self p rest, Or.inl rfl⟩
    · obtain ⟨x, hx, hq⟩ := ih (!b) q h
      exact ⟨x, List.mem_cons_of_mem p hx, hq⟩

theorem mapAlt_ne_nil {g : List Char → List Char} {b : Bool} {ps : List (List Char)}
    (h : ps ≠ []) : mapAlt g b ps ≠ [] := by
  cases ps with
  | nil => exact absurd rfl h
  | cons p rest => simp [mapAlt]

theorem mapAlt_dropLast {g : List Char → List Char} :
    ∀ (ps : List (List Char)) (b : Bool),
      mapAlt g b ps.dropLast = (mapAlt g b ps).dropLast := by
  intro ps
  induction ps with
  | nil => intro b; rfl
  | cons p rest ih =>
    intro b
    cases rest with
    | nil => rfl
    | cons q rest' =>
      show mapAlt g b (p :: (q :: rest').dropLast) = _
      rw [show mapAlt g b (p :: (q :: rest').dropLast) =
        (if b then p else g p) :: mapAlt g (!b) ((q :: rest').dropLast) from rfl]
      rw [ih (!b)]
      show _ = ((if b then p else g p) :: mapAlt g (!b) (q :: rest')).dropLast
      cases hx : mapAlt g (!b) (q :: rest') with
      | nil => exact absurd hx (mapAlt_ne_nil (by simp))
      | cons y ys => rfl

theorem mapAlt_idem {g : List Char → List Char} (hg : ∀ x, g (g x) = g x) :
    ∀ (ps : List (List Char)) (b : Bool), mapAlt g b (mapAlt g b ps) = mapAlt g b ps := by
  intro ps
  induction ps with
  | nil => intro b; rfl
  | cons p rest ih =>
    intro b
    cases b
    · show (if false = true then g p else g (g p)) :: mapAlt g true (mapAlt g true rest) = _
      rw [if_neg (by simp), hg, ih true]
      rfl
    · show (if true = true then p else g p) :: mapAlt g false (mapAlt g false rest) = _
      rw [if_pos rfl, ih false]
      rfl

theorem mapAlt_map_congr {g : List Char → List Char} {h : List Char → List Char} :
    ∀ (ps : List (List Char)) (b : Bool), (∀ x ∈ ps, h (g x) = h x) →
      List.map h (mapAlt g b ps) = List.map h ps := by
  intro ps
  induction ps with
  | nil => intro b _; rfl
  | cons p rest ih =>
    intro b hcong
    show (h (if b then p else g p)) :: List.map h (mapAlt g (!b) rest) = h p :: List.map h rest
    rw [ih (!b) (fun x hx => hcong x (List.mem_cons_of_mem p hx))]
    cases b
    · rw [if_neg (by simp), hcong p (List.mem_cons_self p rest)]
    · rw [if_pos rfl]

theorem mapAlt_appendLast {g : List Char → List Char} {a : Char}
    (hg : ∀ x, g (x ++ [a]) = g x ++ [a]) :
    ∀ (ps : List (List Char)) (b : Bool), ps ≠ [] →
      mapAlt g b (appendLast a ps) = appendLast a (mapAlt g b ps) := by
  intro ps
  induction ps with
  | nil => intro b h; exact absurd rfl h
  | cons p rest ih =>
    intro b _
    cases rest with
    | nil =>
      show mapAlt g b [p ++ [a]] = appendLast a (mapAlt g b [p])
      cases b
      · show [(if false = true then p ++ [a] else g (p ++ [a]))] = _
        rw [if_neg (by simp), hg]
        rfl
      · show [(if true = true then p ++ [a] else g (p ++ [a]))] = _
        rw [if_pos rfl]
        rfl
    | cons q rest' =>
      rw [appendLast_cons a p (by simp)]
      show (if b then p else g p) :: mapAlt g (!b) (appendLast a (q :: rest')) = _
      rw [ih (!b) (by simp)]
      rw [show mapAlt g b (p :: q :: rest') =
        (if b then p else g p) :: mapAlt g (!b) (q :: rest') from rfl]
      rw [appendLast_cons a _ (mapAlt_ne_nil (by simp))]

/-! ### The prose rewrites `dollarize` -/

theorem dollarize_nil : dollarize [] = [] := rfl

theorem dollarize_ne_nil {s : List Char} (hs : s ≠ []) : dollarize s ≠ [] :=
  pyReplace_ne_nil
    (pyReplace_ne_nil
      (pyReplace_ne_nil (pyReplace_ne_nil hs (by simp [ddol])) (by simp [ddol]))
      (by simp))
    (by simp)

theorem dollarize_mem {s : List Char} {c : Char} (h : c ∈ dollarize s) :
    c ∈ s ∨ c = '$' := by
  rcases pyReplace_mem _ c h with h | h
  · rcases pyReplace_mem _ c h with h | h
    · rcases pyReplace_mem _ c h with h | h
      · rcases pyReplace_mem _ c h with h | h
        · exact Or.inl h
        · exact Or.inr (by simpa [ddol] using h)
      · exact Or.inr (by simpa [ddol] using h)
    · exact Or.inr (by simpa using h)
  · exact Or.inr (by simpa using h)

theorem dollarize_no_bt {s : List Char} (h : bt ∉ s) : bt ∉ dollarize s := by
  intro hmem
  rcases dollarize_mem hmem with h2 | h2
  · exact h h2
  · exact absurd h2 (by decide)

theorem dollarize_free (s : List Char) :
    ¬ Occurs [bsl, '['] (dollarize s) ∧ ¬ Occurs [bsl, ']'] (dollarize s) ∧
    ¬ Occurs [bsl, '('] (dollarize s) ∧ ¬ Occurs [bsl, ')'] (dollarize s) := by
  have hA1 : ¬ Occurs [bsl, '['] (pyReplace [bsl, '['] ddol s) :=
    pyReplace_self_free (by simp [ddol]) (by decide) (by decide) s
  have hB1 : ¬ Occurs [bsl, '[']
      (pyReplace [bsl, ']'] ddol (pyReplace [bsl, '['] ddol s)) :=
    pyReplace_no_new (by simp [ddol]) (by simp) (by decide) _ hA1
  have hB2 : ¬ Occurs [bsl, ']'] (pyReplace [bsl, ']'] ddol (pyReplace [bsl, '['] ddol s)) :=
    pyReplace_self_free (by simp [ddol]) (by decide) (by decide) _
  have hC1 : ¬ Occurs [bsl, '[']
      (pyReplace [bsl, '('] ['$'] (pyReplace [bsl, ']'] ddol (pyReplace [bsl, '['] ddol s))) :=
    pyReplace_no_new (by simp) (by simp) (by decide) _ hB1
  have hC2 : ¬ Occurs [bsl, ']']
      (pyReplace [bsl, '('] ['$'] (pyReplace [bsl, ']'] ddol (pyReplace [bsl, '['] ddol s))) :=
    pyReplace_no_new (by simp) (by simp) (by decide) _ hB2
  have hC3 : ¬ Occurs [bsl, '(']
      (pyReplace [bsl, '('] ['$'] (pyReplace [bsl, ']'] ddol (pyReplace [bsl, '['] ddol s))) :=
    pyReplace_self_free (by simp) (by decide) (by decide) _
  refine ⟨?_, ?_, ?_, ?_⟩
  · exact pyReplace_no_new (by simp) (by simp) (by decide) _ hC1
  · exact pyReplace_no_new (by simp) (by simp) (by decide) _ hC2
  · exact pyReplace_no_new (by simp) (by simp) (by decide) _ hC3
  · exact pyReplace_self_free (by simp) (by decide) (by decide) _

theorem dollarize_idem (s : List Char) : dollarize (dollarize s) = dollarize s := by
  obtain ⟨h1, h2, h3, h4⟩ := dollarize_free s
  show pyReplace [bsl, ')'] ['$']
      (pyReplace [bsl, '('] ['$']
        (pyReplace [bsl, ']'] ddol
          (pyReplace [bsl, '['] ddol (dollarize s)))) = dollarize s
  rw [pyReplace_no_occurs ddol _ h1, pyReplace_no_occurs ddol _ h2,
    pyReplace_no_occurs ['$'] _ h3, pyReplace_no_occurs ['$'] _ h4]

theorem dollarize_append_elt {a : Char} (ha1 : a ∉ [bsl, '[']) (ha2 : a ∉ [bsl, ']'])
    (ha3 : a ∉ [bsl, '(']) (ha4 : a ∉ [bsl, ')']) :
    ∀ s, dollarize (s ++ [a]) = dollarize s ++ [a] := by
  intro s
  show pyReplace [bsl, ')'] ['$']
      (pyReplace [bsl, '('] ['$']
        (pyReplace [bsl, ']'] ddol
          (pyReplace [bsl, '['] ddol (s ++ [a])))) = _
  rw [pyReplace_append_elt ha1 s, pyReplace_append_elt ha2, pyReplace_append_elt ha3,
    pyReplace_append_elt ha4]
  rfl

/-! ### Properties of `convertPart` -/

theorem convertPart_subparts_no_bt (part : List Char) :
    ∀ q ∈ mapAlt dollarize false (pySplit [bt] part), bt ∉ q := by
  intro q hq
  obtain ⟨x, hx, hqx⟩ := mapAlt_mem _ _ q hq
  have hbtx : bt ∉ x := by
    intro hb
    exact pySplit_parts_no_occurs part x hx ((occurs_single_iff bt x).mpr hb)
  rcases hqx with rfl | rfl
  · exact hbtx
  · exact dollarize_no_bt hbtx

theorem convertPart_split (part : List Char) :
    pySplit [bt] (convertPart part) = mapAlt dollarize false (pySplit [bt] part) := by
  show pySplit [bt] (joinSep [bt] (mapAlt dollarize false (pySplit [bt] part))) = _
  exact pySplit_joinSep_single bt _ (mapAlt_ne_nil (pySplit_ne_nil _ _))
    (convertPart_subparts_no_bt part)

theorem convertPart_idem (part : List Char) :
    convertPart (convertPart part) = convertPart part := by
  show joinSep [bt] (mapAlt dollarize false (pySplit [bt] (convertPart part))) = _
  rw [convertPart_split, mapAlt_idem dollarize_idem]
  rfl

theorem convertPart_mem {part : List Char} {c : Char} (h : c ∈ convertPart part) :
    c ∈ part ∨ c = '$' ∨ c = bt := by
  rcases joinSep_mem [bt] _ h with h | ⟨q, hq, hcq⟩
  · exact Or.inr (Or.inr (by simpa using h))
  · obtain ⟨x, hx, hqx⟩ := mapAlt_mem _ _ q hq
    rcases hqx with rfl | rfl
    · exact Or.inl (pySplit_mem_mem hx hcq)
    · rcases dollarize_mem hcq with h2 | h2
      · exact Or.inl (pySplit_mem_mem hx h2)
      · exact Or.inr (Or.inl h2)

theorem collapse_joinSep_bt :
    ∀ bs : List (List Char), collapse (joinSep [bt] bs) = joinSep [bt] (List.map collapse bs) := by
  intro bs
  induction bs with
  | nil => rfl
  | cons b rest ih =>
    cases rest with
    | nil => rfl
    | cons b1 rest' =>
      rw [joinSep_cons_cons,
        show (b ++ [bt] ++ joinSep [bt] (b1 :: rest') : List Char) =
          b ++ bt :: joinSep [bt] (b1 :: rest') from by simp,
        collapse_append_bt, ih]
      simp [List.map_cons, joinSep_cons_cons]

theorem convertPart_collapse (part : List Char) :
    collapse (convertPart part) = collapse part := by
  show collapse (joinSep [bt] (mapAlt dollarize false (pySplit [bt] part))) = _
  rw [collapse_joinSep_bt]
  rw [mapAlt_map_congr (pySplit [bt] part) false ?hcong]
  case hcong =>
    intro x hx
    have hbtx : bt ∉ x := by
      intro hb
      exact pySplit_parts_no_occurs part x hx ((occurs_single_iff bt x).mpr hb)
    cases hxe : x.isEmpty
    · have hxne : x ≠ [] := by
        intro h
        rw [h] at hxe
        cases hxe
      rw [collapse_no_bt x hbtx hxne,
        collapse_no_bt (dollarize x) (dollarize_no_bt hbtx) (dollarize_ne_nil hxne)]
    · have hxn : x = [] := List.isEmpty_iff.mp hxe
      subst hxn
      rw [dollarize_nil]
  rw [← collapse_joinSep_bt]
  rw [show joinSep [bt] (pySplit [bt] part) = part from joinSep_pySplit part]

theorem convertPart_f3_free {part : List Char} (h : ¬ Occurs f3 part) :
    ¬ Occurs f3 (convertPart part) := by
  intro h2
  apply h
  apply collapse_occurs_f3_mpr
  rw [← convertPart_collapse part]
  exact collapse_occurs_f3_mp h2

theorem convertPart_last_bt {part : List Char}
    (h : lastChar (convertPart part) = some bt) : lastChar part = some bt := by
  have h1 := (collapse_last_bt (convertPart part)).mpr h
  rw [convertPart_collapse] at h1
  exact (collapse_last_bt part).mp h1

theorem convertPart_append_nl (part : List Char) :
    convertPart (part ++ ['\n']) = convertPart part ++ ['\n'] := by
  show joinSep [bt] (mapAlt dollarize false (pySplit [bt] (part ++ ['\n']))) = _
  rw [show pySplit [bt] (part ++ ['\n']) =
      pySplit (bt :: ([] : List Char)) (part ++ ['\n']) from rfl,
    pySplit_append_elt (by decide) part,
    show pySplit (bt :: ([] : List Char)) part = pySplit [bt] part from rfl,
    mapAlt_appendLast
      (fun x => dollarize_append_elt (by decide) (by decide) (by decide) (by decide) x)
      (pySplit [bt] part) false (pySplit_ne_nil _ _),
    joinSep_appendLast [bt] '\n' _ (mapAlt_ne_nil (pySplit_ne_nil _ _))]
  rfl

/-! ### Properties of `convertMathDelimiters` -/

theorem convert_parts_free (s : List Char) :
    ∀ q ∈ mapAlt convertPart false (pySplit f3 s), ¬ Occurs f3 q := by
  intro q hq
  obtain ⟨x, hx, hqx⟩ := mapAlt_mem _ _ q hq
  have hxf : ¬ Occurs f3 x := pySplit_parts_no_occurs s x hx
  rcases hqx with rfl | rfl
  · exact hxf
  · exact convertPart_f3_free hxf

theorem convert_split (s : List Char) :
    pySplit f3 (convertMathDelimiters s) = mapAlt convertPart false (pySplit f3 s) := by
  show pySplit f3 (joinSep f3 (mapAlt convertPart false (pySplit f3 s))) = _
  apply pySplit_joinSep_f3
  · exact mapAlt_ne_nil (pySplit_ne_nil _ _)
  · exact convert_parts_free s
  · intro q hq
    rw [← mapAlt_dropLast] at hq
    obtain ⟨x, hx, hqx⟩ := mapAlt_mem _ _ q hq
    have hxl : lastChar x ≠ some bt := pySplit_f3_dropLast s x hx
    rcases hqx with rfl | rfl
    · exact hxl
    · exact fun h => hxl (convertPart_last_bt h)

theorem convert_idem (s : List Char) :
    convertMathDelimiters (convertMathDelimiters s) = convertMathDelimiters s := by
  show joinSep f3 (mapAlt convertPart false (pySplit f3 (convertMathDelimiters s))) = _
  rw [convert_split, mapAlt_idem convertPart_idem]
  rfl

theorem convert_mem {s : List Char} {c : Char} (h : c ∈ convertMathDelimiters s) :
    c ∈ s ∨ c = '$' ∨ c = bt := by
  rcases joinSep_mem f3 _ h with h | ⟨q, hq, hcq⟩
  · exact Or.inr (Or.inr (by simpa [f3] using h))
  · obtain ⟨x, hx, hqx⟩ := mapAlt_mem _ _ q hq
    have hxs : ∀ d, d ∈ x → d ∈ s := fun d hd => pySplit_mem_mem hx hd
    rcases hqx with rfl | rfl
    · exact Or.inl (hxs c hcq)
    · rcases convertPart_mem hcq with h2 | h2
      · exact Or.inl (hxs c h2)
      · exact Or.inr h2

theorem convert_append_nl (s : List Char) :
    convertMathDelimiters (s ++ ['\n']) = convertMathDelimiters s ++ ['\n'] := by
  show joinSep f3 (mapAlt convertPart false (pySplit f3 (s ++ ['\n']))) = _
  rw [show pySplit f3 (s ++ ['\n']) = pySplit (bt :: [bt, bt]) (s ++ ['\n']) from rfl,
    pySplit_append_elt (by decide) s,
    show pySplit (bt :: [bt, bt]) s = pySplit f3 s from rfl,
    mapAlt_appendLast convertPart_append_nl (pySplit f3 s) false (pySplit_ne_nil _ _),
    joinSep_appendLast f3 '\n' _ (mapAlt_ne_nil (pySplit_ne_nil _ _))]
  rfl

/-! ### The Unicode normalization pass -/

theorem foldl_single_append (tbl : List (Char × List Char)) :
    ∀ x y : List Char,
      tbl.foldl (fun t pr => pyReplace [pr.1] pr.2 t) (x ++ y) =
        tbl.foldl (fun t pr => pyReplace [pr.1] pr.2 t) x ++
          tbl.foldl (fun t pr => pyReplace [pr.1] pr.2 t) y := by
  induction tbl with
  | nil => intro x y; rfl
  | cons pr rest ih =>
    intro x y
    show rest.foldl _ (pyReplace [pr.1] pr.2 (x ++ y)) = _
    rw [pyReplace_single, mapChars_append, ← pyReplace_single, ← pyReplace_single]
    exact ih _ _

theorem applyUnicodeFixes_append (x y : List Char) :
    applyUnicodeFixes (x ++ y) = applyUnicodeFixes x ++ applyUnicodeFixes y :=
  foldl_single_append unicodeFixes x y

theorem foldl_single_skip (tbl : List (Char × List Char)) :
    ∀ c : Char, (∀ pr ∈ tbl, c ≠ pr.1) →
      tbl.foldl (fun t pr => pyReplace [pr.1] pr.2 t) [c] = [c] := by
  induction tbl with
  | nil => intro c _; rfl
  | cons pr rest ih =>
    intro c h
    show rest.foldl _ (pyReplace [pr.1] pr.2 [c]) = [c]
    have hone : pyReplace [pr.1] pr.2 [c] = [c] := by
      rw [pyReplace_single]
      show (if c = pr.1 then pr.2 else [c]) ++ mapChars _ [] = [c]
      rw [if_neg (h pr (List.mem_cons_self pr rest))]
      rfl
    rw [hone]
    exact ih c (fun q hq => h q (List.mem_cons_of_mem pr hq))

theorem uniChar_not_key {c : Char} (h : ∀ q ∈ unicodeFixes, c ≠ q.1) : uniChar c = [c] := by
  rw [uniChar,
    if_neg (h _ (by decide : ('\u00A0', [' ']) ∈ unicodeFixes)),
    if_neg (h _ (by decide : ('\u2018', [apos]) ∈ unicodeFixes)),
    if_neg (h _ (by decide : ('\u2019', [apos]) ∈ unicodeFixes)),
    if_neg (h _ (by decide : ('\u201C', ['"']) ∈ unicodeFixes)),
    if_neg (h _ (by decide : ('\u201D', ['"']) ∈ unicodeFixes)),
    if_neg (h _ (by decide : ('\u2013', ['-']) ∈ unicodeFixes)),
    if_neg (h _ (by decide : ('\u2014', ['-']) ∈ unicodeFixes)),
    if_neg (h _ (by decide : ('\u2026', ['.', '.', '.']) ∈ unicodeFixes)),
    if_neg (h _ (by decide : ('\u2192', ['-', '>']) ∈ unicodeFixes)),
    if_neg (h _ (by decide : ('\u21D2', ['=', '>']) ∈ unicodeFixes)),
    if_neg (h _ (by decide : ('\u21A6', ['|', '-', '>']) ∈ unicodeFixes)),
    if_neg (h _ (by decide : ('\u2212', ['-']) ∈ unicodeFixes)),
    if_neg (h _ (by decide : ('\u200B', ([] : List Char)) ∈ unicodeFixes)),
    if_neg (h _ (by decide : ('\u200C', ([] : List Char)) ∈ unicodeFixes)),
    if_neg (h _ (by decide : ('\u200D', ([] : List Char)) ∈ unicodeFixes)),
    if_neg (h _ (by decide : ('\uFEFF', ([] : List Char)) ∈ unicodeFixes))]

set_option maxHeartbeats 1000000 in
theorem applyUnicodeFixes_single (c : Char) : applyUnicodeFixes [c] = uniChar c := by
  by_cases h1 : c = ' '
  · subst h1; decide
  by_cases h2 : c = '‘'
  · subst h2; decide
  by_cases h3 : c = '’'
  · subst h3; decide
  by_cases h4 : c = '“'
  · subst h4; decide
  by_cases h5 : c = '”'
  · subst h5; decide
  by_cases h6 : c = '–'
  · subst h6; decide
  by_cases h7 : c = '—'
  · subst h7; decide
  by_cases h8 : c = '…'
  · subst h8; decide
  by_cases h9 : c = '→'
  · subst h9; decide
  by_cases h10 : c = '⇒'
  · subst h10; decide
  by_cases h11 : c = '↦'
  · subst h11; decide
  by_cases h12 : c = '−'
  · subst h12; decide
  by_cases h13 : c = '​'
  · subst h13; decide
  by_cases h14 : c = '‌'
  · subst h14; decide
  by_cases h15 : c = '‍'
  · subst h15; decide
  by_cases h16 : c = '﻿'
  · subst h16; decide
  have hall : ∀ q ∈ unicodeFixes, c ≠ q.1 := by
    intro q hq
    fin_cases hq
    exacts [h1, h2, h3, h4, h5, h6, h7, h8, h9, h10, h11, h12, h13, h14, h15, h16]
  rw [uniChar_not_key hall]
  exact foldl_single_skip unicodeFixes c hall

theorem applyUnicodeFixes_flat : ∀ s, applyUnicodeFixes s = mapChars uniChar s := by
  intro s
  induction s with
  | nil => rfl
  | cons c rest ih =>
    rw [show (c :: rest : List Char) = [c] ++ rest from rfl, applyUnicodeFixes_append,
      applyUnicodeFixes_single, ih]
    rfl

theorem uniChar_key : ∀ pr ∈ unicodeFixes, uniChar pr.1 = pr.2 := by decide

theorem keys_not_in_repls : ∀ pr ∈ unicodeFixes, ∀ q ∈ unicodeFixes, pr.1 ∉ q.2 := by
  decide

theorem keys_special : ∀ pr ∈ unicodeFixes, pr.1 ≠ '$' ∧ pr.1 ≠ bt ∧ pr.1 ≠ '\n' := by
  decide

theorem uniChar_no_keys : ∀ (c : Char), ∀ pr ∈ unicodeFixes, pr.1 ∉ uniChar c := by
  intro c pr hpr
  by_cases hk : ∀ q ∈ unicodeFixes, c ≠ q.1
  · rw [uniChar_not_key hk]
    intro hmem
    rcases List.mem_singleton.mp hmem with rfl
    exact hk pr hpr rfl
  · push_neg at hk
    obtain ⟨q, hq, hcq⟩ := hk
    subst hcq
    rw [uniChar_key q hq]
    exact keys_not_in_repls pr hpr q hq

theorem uniChar_repl_fixed : ∀ q ∈ unicodeFixes, mapChars uniChar q.2 = q.2 := by decide

theorem uniChar_char_idem (c : Char) : mapChars uniChar (uniChar c) = uniChar c := by
  by_cases hk : ∀ q ∈ unicodeFixes, c ≠ q.1
  · rw [uniChar_not_key hk]
    show uniChar c ++ mapChars uniChar [] = [c]
    rw [uniChar_not_key hk]
    rfl
  · push_neg at hk
    obtain ⟨q, hq, hcq⟩ := hk
    subst hcq
    rw [uniChar_key q hq]
    exact uniChar_repl_fixed q hq

theorem mapChars_uniChar_idem : ∀ s, mapChars uniChar (mapChars uniChar s) = mapChars uniChar s := by
  intro s
  induction s with
  | nil => rfl
  | cons c rest ih =>
    show mapChars uniChar (uniChar c ++ mapChars uniChar rest) = _
    rw [mapChars_append, ih, uniChar_char_idem]
    rfl

theorem applyUnicodeFixes_idem (s : List Char) :
    applyUnicodeFixes (applyUnicodeFixes s) = applyUnicodeFixes s := by
  rw [applyUnicodeFixes_flat, applyUnicodeFixes_flat, mapChars_uniChar_idem]

theorem applyUnicodeFixes_id_of_keyfree {s : List Char}
    (h : ∀ pr ∈ unicodeFixes, pr.1 ∉ s) : applyUnicodeFixes s = s := by
  rw [applyUnicodeFixes_flat]
  apply mapChars_congr_id
  intro c hc
  apply uniChar_not_key
  intro q hq hcq
  exact h q hq (hcq ▸ hc)

theorem applyUnicodeFixes_keyfree (s : List Char) :
    ∀ pr ∈ unicodeFixes, pr.1 ∉ applyUnicodeFixes s := by
  intro pr hpr hmem
  rw [applyUnicodeFixes_flat] at hmem
  obtain ⟨d, _, hd⟩ := mapChars_mem _ _ hmem
  exact uniChar_no_keys d pr hpr hd

theorem uniChar_nl : uniChar '\n' = ['\n'] := by decide

theorem applyUnicodeFixes_append_nl (s : List Char) :
    applyUnicodeFixes (s ++ ['\n']) = applyUnicodeFixes s ++ ['\n'] := by
  rw [applyUnicodeFixes_append]
  congr 1

/-! ### The composed sanitizer -/

theorem sanitizeText_idem (s : List Char) :
    sanitizeText (sanitizeText s) = sanitizeText s := by
  show convertMathDelimiters (applyUnicodeFixes (sanitizeText s)) = _
  have hfree : ∀ pr ∈ unicodeFixes, pr.1 ∉ sanitizeText s := by
    intro pr hpr hmem
    rcases convert_mem hmem with h | h | h
    · exact applyUnicodeFixes_keyfree s pr hpr h
    · exact (keys_special pr hpr).1 h
    · exact (keys_special pr hpr).2.1 h
  rw [applyUnicodeFixes_id_of_keyfree hfree]
  exact convert_idem _

theorem sanitizeText_append_nl (s : List Char) :
    sanitizeText (s ++ ['\n']) = sanitizeText s ++ ['\n'] := by
  show convertMathDelimiters (applyUnicodeFixes (s ++ ['\n'])) = _
  rw [applyUnicodeFixes_append_nl, convert_append_nl]
  rfl

theorem sanitizeText_last_nl {s : List Char} (h : lastChar s = some '\n') :
    lastChar (sanitizeText s) = some '\n' := by
  obtain ⟨s', rfl⟩ := lastChar_eq_some.mp h
  rw [sanitizeText_append_nl]
  exact lastChar_append_elt _ _

/-! ### Reassembly of fragment lists -/

theorem interleaveNl_join : ∀ ls : List (List Char),
    (interleaveNl ls).flatten = joinSep ['\n'] ls := by
  intro ls
  induction ls with
  | nil => rfl
  | cons l rest ih =>
    cases rest with
    | nil => simp [interleaveNl, joinSep]
    | cons q rest' =>
      show (l :: ['\n'] :: interleaveNl (q :: rest')).flatten = _
      rw [joinSep_cons_cons]
      simp only [List.flatten_cons]
      rw [ih]
      simp

theorem sanitizeSourceList_flatten (frags : List (List Char)) :
    (sanitizeSourceList frags).flatten = sanitizeText frags.flatten := by
  by_cases heq : sanitizeText frags.flatten = frags.flatten
  · rw [show sanitizeSourceList frags = frags from by simp [sanitizeSourceList, heq], heq]
  · have hcond : ¬ (lastChar frags.flatten = some '\n' ∧
        ¬ lastChar (sanitizeText frags.flatten) = some '\n') := by
      rintro ⟨hh1, hh2⟩
      exact hh2 (sanitizeText_last_nl hh1)
    have hbranch : sanitizeSourceList frags =
        interleaveNl (pySplit ['\n'] (sanitizeText frags.flatten)) := by
      simp [sanitizeSourceList, heq, hcond]
    rw [hbranch, interleaveNl_join]
    exact joinSep_pySplit _

theorem sanitizeSourceStr_eq (s : List Char) : sanitizeSourceStr s = sanitizeText s := by
  by_cases h : sanitizeText s = s
  · simp [sanitizeSourceStr, h]
  · simp [sanitizeSourceStr, h]

/-! ### The metadata patch -/

theorem replaceFirst_no_occurs {pat repl : List Char} :
    ∀ s, ¬ Occurs pat s → replaceFirst pat repl s = s := by
  intro s
  induction s with
  | nil => intro _; rfl
  | cons c rest ih =>
    intro hocc
    have hb : ¬ begins pat (c :: rest) = true := by
      intro hb
      obtain ⟨u, hu⟩ := (begins_iff _ _).mp hb
      exact hocc ⟨[], u, by simpa using hu⟩
    show (if begins pat (c :: rest) then _ else _) = _
    rw [if_neg hb, ih (fun h => hocc (occurs_tail h))]

theorem replaceFirst_decomp {pat repl : List Char} (hne : pat ≠ []) :
    ∀ s, Occurs pat s → ∃ x y, s = x ++ pat ++ y ∧
      replaceFirst pat repl s = x ++ repl ++ y := by
  intro s
  induction s with
  | nil =>
    intro h
    exact absurd ((occurs_nil_iff pat).mp h) hne
  | cons c rest ih =>
    intro hocc
    by_cases hb : begins pat (c :: rest) = true
    · obtain ⟨u, hu⟩ := (begins_iff _ _).mp hb
      refine ⟨[], u, by simpa using hu, ?_⟩
      show (if begins pat (c :: rest) then repl ++ (c :: rest).drop pat.length
        else _) = [] ++ repl ++ u
      rw [if_pos hb, hu, List.drop_left]
      rfl
    · rcases (occurs_cons_iff _ c rest).mp hocc with ⟨u, hu⟩ | hocc2
      · exfalso
        exact hb ((begins_iff _ _).mpr ⟨u, hu⟩)
      · obtain ⟨x, y, hxy, hrw⟩ := ih hocc2
        refine ⟨c :: x, y, by rw [hxy]; rfl, ?_⟩
        show (if begins pat (c :: rest) then _ else c :: replaceFirst pat repl rest) = _
        rw [if_neg hb, hrw]
        rfl

theorem occurs_within {pat mid s : List Char} (hm : Occurs pat mid)
    {x y : List Char} (hs : s = x ++ mid ++ y) : Occurs pat s := by
  obtain ⟨a, b, rfl⟩ := hm
  subst hs
  exact ⟨x ++ a, b ++ y, by simp⟩

/-! ### Remaining helpers for the claim theorems -/

theorem occurs_mapChars_uniChar {q s : List Char} (hq : mapChars uniChar q = q)
    (h : Occurs q s) : Occurs q (mapChars uniChar s) := by
  obtain ⟨a, b, rfl⟩ := h
  rw [mapChars_append, mapChars_append, hq]
  exact ⟨mapChars uniChar a, mapChars uniChar b, rfl⟩

theorem not_occurs_f3_two_bt {p b q : List Char} (hp : bt ∉ p) (hb : bt ∉ b)
    (hq : bt ∉ q) : ¬ Occurs f3 (p ++ [bt] ++ b ++ [bt] ++ q) := by
  intro h
  obtain ⟨x, y, hxy⟩ := h
  have hcnt := congrArg (List.count bt) hxy
  simp only [List.count_append] at hcnt
  have e1 : p.count bt = 0 := List.count_eq_zero.mpr hp
  have e2 : b.count bt = 0 := List.count_eq_zero.mpr hb
  have e3 : q.count bt = 0 := List.count_eq_zero.mpr hq
  have e4 : ([bt] : List Char).count bt = 1 := by simp
  have e5 : (f3 : List Char).count bt = 3 := by decide
  omega

theorem pySplit_f3_no_occurs {t : List Char} (ht : ¬ Occurs f3 t) : pySplit f3 t = [t] :=
  pySplit_no_occurs t ht

/-- A sample non-markdown cell for exercising the frame property. -/
def sampleCodeCell : NbCell Unit := ⟨"code".data, SrcVal.strv "\\(x\\)".data, ()⟩

/-- A one-cell sample notebook. -/
def sampleNotebook : Notebook Unit Unit := ⟨[sampleCodeCell], ()⟩

/-! ### The claims -/

/-- C1: with the default configuration (`normalize_unicode = true`,
`normalize_math_delimiters = false`, `escape_underscores = false`), sanitizing
`"price is — $5’s worth \(x\)"` yields exactly `"price is - $5's worth \(x\)"`;
moreover the default configuration runs only the Unicode pass, so for every
input the inline-math delimiters `\(` and `\)` survive sanitization. -/
theorem c1_default_config_example :
    sanitizeCfg defaultConfig "price is \u2014 $5\u2019s worth \\(x\\)".data =
      "price is - $5's worth \\(x\\)".data ∧
    (∀ s, sanitizeCfg defaultConfig s = applyUnicodeFixes s) ∧
    (∀ s, Occurs [bsl, '('] s → Occurs [bsl, '('] (sanitizeCfg defaultConfig s)) ∧
    (∀ s, Occurs [bsl, ')'] s → Occurs [bsl, ')'] (sanitizeCfg defaultConfig s)) := by
  refine ⟨by decide, fun s => rfl, ?_, ?_⟩
  · intro s h
    show Occurs [bsl, '('] (applyUnicodeFixes s)
    rw [applyUnicodeFixes_flat]
    exact occurs_mapChars_uniChar (by decide) h
  · intro s h
    show Occurs [bsl, ')'] (applyUnicodeFixes s)
    rw [applyUnicodeFixes_flat]
    exact occurs_mapChars_uniChar (by decide) h

theorem c1_witness :
    Occurs [bsl, '('] "x\\(a".data ∧
    Occurs [bsl, '('] (sanitizeCfg defaultConfig "x\\(a".data) :=
  ⟨by decide, c1_default_config_example.2.2.1 _ (by decide)⟩

/-- C2 counterexample: for the input `"```\(y\)"` (an opening fence never
closed), the text after the fence marker is NOT rewritten as prose — the whole
input is returned unchanged, not with `\(y\)` normalized to `$y$`. -/
theorem c2_counterexample :
    convertMathDelimiters "```\\(y\\)".data = "```\\(y\\)".data ∧
    convertMathDelimiters "```\\(y\\)".data ≠ "```$y$".data := by
  exact ⟨by decide, by decide⟩

/-- C2 (amended): the text after an unterminated fence opener is classified as
CODE and left unchanged by math-delimiter normalization (the prose before the
opener is still rewritten); the classifier is total on such input. -/
theorem c2_unterminated_fence_is_code :
    ∀ p t : List Char, ¬ Occurs f3 p → lastChar p ≠ some bt → ¬ Occurs f3 t →
      convertMathDelimiters (p ++ f3 ++ t) = convertPart p ++ f3 ++ t := by
  intro p t hp hlast ht
  show joinSep f3 (mapAlt convertPart false (pySplit f3 (p ++ f3 ++ t))) = _
  rw [pySplit_f3_boundary p t hp hlast, pySplit_f3_no_occurs ht]
  show joinSep f3 [convertPart p, t] = _
  rw [joinSep_cons_cons]
  rfl

theorem c2_witness :
    ¬ Occurs f3 "ab\\(x\\)".data ∧ lastChar "ab\\(x\\)".data ≠ some bt ∧
    ¬ Occurs f3 "\\(y\\)".data ∧
    convertMathDelimiters ("ab\\(x\\)".data ++ f3 ++ "\\(y\\)".data) =
      convertPart "ab\\(x\\)".data ++ f3 ++ "\\(y\\)".data :=
  ⟨by decide, by decide, by decide,
    c2_unterminated_fence_is_code _ _ (by decide) (by decide) (by decide)⟩

/-- C3: every character of the Unicode mapping table maps to exactly its
specified replacement; the normalization acts character by character,
uniformly at every position (hence in every region), and no mapped character
survives the full sanitizer pipeline — not even inside code fences, inline
code or math. -/
theorem c3_unicode_mapping_uniform :
    (∀ pr ∈ unicodeFixes, applyUnicodeFixes [pr.1] = pr.2) ∧
    (∀ s, applyUnicodeFixes s = mapChars uniChar s) ∧
    (∀ x y, applyUnicodeFixes (x ++ y) = applyUnicodeFixes x ++ applyUnicodeFixes y) ∧
    (∀ s, ∀ pr ∈ unicodeFixes, pr.1 ∉ sanitizeText s) := by
  refine ⟨?_, applyUnicodeFixes_flat, applyUnicodeFixes_append, ?_⟩
  · intro pr hpr
    rw [applyUnicodeFixes_single]
    exact uniChar_key pr hpr
  · intro s pr hpr hmem
    rcases convert_mem hmem with h | h | h
    · exact applyUnicodeFixes_keyfree s pr hpr h
    · exact (keys_special pr hpr).1 h
    · exact (keys_special pr hpr).2.1 h

theorem c3_witness :
    ('\u2014', ['-']) ∈ unicodeFixes ∧ applyUnicodeFixes ['\u2014'] = ['-'] ∧
    ('\u00A0', [' ']) ∈ unicodeFixes ∧
    '\u00A0' ∉ sanitizeText "```a\u00A0b```".data :=
  ⟨by decide, c3_unicode_mapping_uniform.1 ('\u2014', ['-']) (by decide), by decide,
    c3_unicode_mapping_uniform.2.2.2 ("```a\u00A0b```".data) ('\u00A0', [' ']) (by decide)⟩

/-- C4: math-delimiter normalization never alters code regions: the contents
of a triple-backtick fence are returned verbatim (a single backtick inside the
fence does not end it early), the contents of a single-backtick inline code
span are returned verbatim, and in particular `` `\(x\)` `` is unchanged. -/
theorem c4_code_regions_untouched :
    (∀ p a q : List Char, ¬ Occurs f3 p → lastChar p ≠ some bt → ¬ Occurs f3 a →
      lastChar a ≠ some bt → ¬ Occurs f3 q →
      convertMathDelimiters (p ++ f3 ++ a ++ f3 ++ q) =
        convertPart p ++ f3 ++ a ++ f3 ++ convertPart q) ∧
    (∀ p b q : List Char, bt ∉ p → bt ∉ b → bt ∉ q →
      convertMathDelimiters (p ++ [bt] ++ b ++ [bt] ++ q) =
        dollarize p ++ [bt] ++ b ++ [bt] ++ dollarize q) ∧
    convertMathDelimiters "`\\(x\\)`".data = "`\\(x\\)`".data := by
  refine ⟨?_, ?_, by decide⟩
  · intro p a q hp hpl ha hal hq
    show joinSep f3 (mapAlt convertPart false (pySplit f3 (p ++ f3 ++ a ++ f3 ++ q))) = _
    rw [show (p ++ f3 ++ a ++ f3 ++ q : List Char) = p ++ f3 ++ (a ++ f3 ++ q) from by
      simp [List.append_assoc]]
    rw [pySplit_f3_boundary p (a ++ f3 ++ q) hp hpl,
      pySplit_f3_boundary a q ha hal, pySplit_f3_no_occurs hq]
    show joinSep f3 [convertPart p, a, convertPart q] = _
    rw [joinSep_cons_cons, joinSep_cons_cons]
    show convertPart p ++ f3 ++ (a ++ f3 ++ convertPart q) = _
    simp [List.append_assoc]
  · intro p b q hp hb hq
    have hocc : ¬ Occurs f3 (p ++ [bt] ++ b ++ [bt] ++ q) := not_occurs_f3_two_bt hp hb hq
    show joinSep f3 (mapAlt convertPart false (pySplit f3 (p ++ [bt] ++ b ++ [bt] ++ q))) = _
    rw [pySplit_f3_no_occurs hocc]
    show convertPart (p ++ [bt] ++ b ++ [bt] ++ q) = _
    show joinSep [bt]
      (mapAlt dollarize false (pySplit [bt] (p ++ [bt] ++ b ++ [bt] ++ q))) = _
    rw [show (p ++ [bt] ++ b ++ [bt] ++ q : List Char) = p ++ [bt] ++ (b ++ [bt] ++ q) from by
      simp [List.append_assoc]]
    rw [pySplit_single_boundary bt p (b ++ [bt] ++ q) hp,
      pySplit_single_boundary bt b q hb,
      pySplit_no_occurs q (fun h => hq ((occurs_single_iff bt q).mp h))]
    show joinSep [bt] [dollarize p, b, dollarize q] = _
    rw [joinSep_cons_cons, joinSep_cons_cons]
    show dollarize p ++ [bt] ++ (b ++ [bt] ++ dollarize q) = _
    simp [List.append_assoc]

theorem c4_witness :
    ¬ Occurs f3 "u\\(v\\)".data ∧ lastChar "u\\(v\\)".data ≠ some bt ∧
    ¬ Occurs f3 "x`y\\(z\\)".data ∧ lastChar "x`y\\(z\\)".data ≠ some bt ∧
    ¬ Occurs f3 "w".data ∧
    convertMathDelimiters ("u\\(v\\)".data ++ f3 ++ "x`y\\(z\\)".data ++ f3 ++ "w".data) =
      convertPart "u\\(v\\)".data ++ f3 ++ "x`y\\(z\\)".data ++ f3 ++ convertPart "w".data :=
  ⟨by decide, by decide, by decide, by decide, by decide,
    c4_code_regions_untouched.1 _ _ _ (by decide) (by decide) (by decide) (by decide)
      (by decide)⟩

/-- C5 counterexample: with underscore escaping enabled, the sanitizer is not
idempotent — sanitizing `"_"` once yields `"\_"`, a second pass yields
`"\\_"`. -/
theorem c5_counterexample :
    sanitizeCfg ⟨false, false, true⟩ (sanitizeCfg ⟨false, false, true⟩ "_".data) ≠
      sanitizeCfg ⟨false, false, true⟩ "_".data := by
  decide

/-- C5 (amended): the sanitizer is idempotent for every configuration with
`escape_underscores = false` — in particular for the default configuration and
for the shipped script's configuration (Unicode fixes plus math-delimiter
conversion); with `escape_underscores = true` idempotence fails. -/
theorem c5_idempotent_without_underscore_escaping :
    ∀ cfg : SanitizeConfig, cfg.escape_underscores = false →
      ∀ s, sanitizeCfg cfg (sanitizeCfg cfg s) = sanitizeCfg cfg s := by
  rintro ⟨u, m, e⟩ he s
  have he' : e = false := he
  subst he'
  cases u
  · cases m
    · have hid : ∀ t, sanitizeCfg ⟨false, false, false⟩ t = t := by
        intro t
        simp [sanitizeCfg]
      simp only [hid]
    · have hcv : ∀ t, sanitizeCfg ⟨false, true, false⟩ t = convertMathDelimiters t := by
        intro t
        simp [sanitizeCfg]
      simp only [hcv]
      exact convert_idem s
  · cases m
    · have huf : ∀ t, sanitizeCfg ⟨true, false, false⟩ t = applyUnicodeFixes t := by
        intro t
        simp [sanitizeCfg]
      simp only [huf]
      exact applyUnicodeFixes_idem s
    · have hst : ∀ t, sanitizeCfg ⟨true, true, false⟩ t = sanitizeText t := by
        intro t
        simp [sanitizeCfg, sanitizeText]
      simp only [hst]
      exact sanitizeText_idem s

theorem c5_witness :
    (⟨true, true, false⟩ : SanitizeConfig).escape_underscores = false ∧
    sanitizeCfg ⟨true, true, false⟩
        (sanitizeCfg ⟨true, true, false⟩ "a\u2014 \\(x\\)".data) =
      sanitizeCfg ⟨true, true, false⟩ "a\u2014 \\(x\\)".data :=
  ⟨rfl, c5_idempotent_without_underscore_escaping ⟨true, true, false⟩ rfl
    ("a\u2014 \\(x\\)".data)⟩

/-- C6 counterexample: for the fragment list `["a\n​"]` (a zero-width
space after the final newline), the output's concatenation ends with a line
terminator while the input's concatenation does not, so the claimed
"if and only if" fails. -/
theorem c6_counterexample :
    lastChar (sanitizeSourceList ["a\n\u200B".data]).flatten = some '\n' ∧
    lastChar (["a\n\u200B".data] : List (List Char)).flatten ≠ some '\n' := by
  exact ⟨by decide, by decide⟩

/-- C6 (amended): for every fragment-list cell source, the output fragments
concatenate exactly to `sanitizeText` of the input concatenation; if the input
concatenation ends with a newline so does the output's (the converse can fail,
since sanitization may delete trailing zero-width characters); a flat string
source maps to the flat sanitized string. -/
theorem c6_reassembly_fidelity :
    (∀ frags : List (List Char),
      (sanitizeSourceList frags).flatten = sanitizeText frags.flatten ∧
      (lastChar frags.flatten = some '\n' →
        lastChar (sanitizeSourceList frags).flatten = some '\n')) ∧
    (∀ s, sanitizeSourceStr s = sanitizeText s) := by
  refine ⟨fun frags => ⟨sanitizeSourceList_flatten frags, ?_⟩, sanitizeSourceStr_eq⟩
  intro h
  rw [sanitizeSourceList_flatten]
  exact sanitizeText_last_nl h

theorem c6_witness :
    lastChar (["ab\u2014\n".data] : List (List Char)).flatten = some '\n' ∧
    lastChar (sanitizeSourceList ["ab\u2014\n".data]).flatten = some '\n' :=
  ⟨by decide, (c6_reassembly_fidelity.1 (["ab\u2014\n".data])).2 (by decide)⟩

/-- C7: the sanitizer core is total — the replace and split scanners reach
their base case within `s.length` steps on every input (any fuel of at least
the text length computes the same result), so `sanitizeText`, which runs them
with exactly that fuel, is defined on all inputs, including malformed markup
with unterminated delimiters. -/
theorem c7_scanners_total :
    ∀ (p : Char) (ps repl s : List Char) (f : Nat), s.length ≤ f →
      replAux f p ps repl s = replAux s.length p ps repl s ∧
      splitAux f p ps s = splitAux s.length p ps s := by
  intro p ps repl s f hf
  exact ⟨replAux_fuel p ps repl f s.length s hf (le_refl _),
    splitAux_fuel p ps f s.length s hf (le_refl _)⟩

theorem c7_witness :
    ("```x\\(y".data).length ≤ 12 ∧
    (replAux 12 bt [bt, bt] ddol "```x\\(y".data =
        replAux ("```x\\(y".data).length bt [bt, bt] ddol "```x\\(y".data ∧
      splitAux 12 bt [bt, bt] "```x\\(y".data =
        splitAux ("```x\\(y".data).length bt [bt, bt] "```x\\(y".data) :=
  ⟨by decide, c7_scanners_total bt [bt, bt] ddol _ 12 (by decide)⟩

/-- C8: the metadata patch is idempotent on file content — applying
`fix_pdf_metadata`'s transformation twice yields the same content as applying
it once, and whenever the anchor is present the second run reports the
informational already-present message. -/
theorem c8_metadata_patch_idempotent :
    (∀ c : List Char, (fixPdfMetadata (fixPdfMetadata c).1).1 = (fixPdfMetadata c).1) ∧
    (∀ c : List Char, Occurs anchorPat c →
      (fixPdfMetadata (fixPdfMetadata c).1).2 = MetaResult.alreadyPresent) := by
  have hins : Occurs titleLine insertedBlock := by decide
  have hanchor_ne : anchorPat ≠ [] := by decide
  have key : ∀ c : List Char, ¬ hasSub titleLine c = true → Occurs anchorPat c →
      hasSub titleLine (replaceFirst anchorPat insertedBlock c) = true := by
    intro c _ ha
    obtain ⟨x, y, _, hrw⟩ := replaceFirst_decomp hanchor_ne c ha
    exact (hasSub_iff _ _).mpr (occurs_within hins hrw)
  constructor
  · intro c
    by_cases ht : hasSub titleLine c = true
    · simp [fixPdfMetadata, ht]
    · by_cases ha : Occurs anchorPat c
      · have h2 := key c ht ha
        simp [fixPdfMetadata, ht, h2]
      · have hid : replaceFirst anchorPat insertedBlock c = c :=
          replaceFirst_no_occurs c ha
        simp [fixPdfMetadata, ht, hid]
  · intro c ha
    by_cases ht : hasSub titleLine c = true
    · simp [fixPdfMetadata, ht]
    · have h2 := key c ht ha
      simp [fixPdfMetadata, ht, h2]

theorem c8_witness :
    Occurs anchorPat "x\\hypersetup\x7by".data ∧
    (fixPdfMetadata (fixPdfMetadata "x\\hypersetup\x7by".data).1).2 =
      MetaResult.alreadyPresent :=
  ⟨by decide, c8_metadata_patch_idempotent.2 _ (by decide)⟩

/-- C9: when the `\hypersetup{` anchor is absent and the metadata line is not
already present, `fix_pdf_metadata` leaves the content unchanged and reports
only its informational message; being a total function of the content, it
raises nothing to abort the pipeline. -/
theorem c9_missing_anchor_noop :
    ∀ c : List Char, ¬ Occurs anchorPat c → ¬ Occurs titleLine c →
      fixPdfMetadata c = (c, MetaResult.added) := by
  intro c ha ht
  have ht' : ¬ hasSub titleLine c = true := fun h => ht ((hasSub_iff _ _).mp h)
  have hid : replaceFirst anchorPat insertedBlock c = c := replaceFirst_no_occurs c ha
  simp [fixPdfMetadata, ht', hid]

theorem c9_witness :
    ¬ Occurs anchorPat "documentclass".data ∧ ¬ Occurs titleLine "documentclass".data ∧
    fixPdfMetadata "documentclass".data = ("documentclass".data, MetaResult.added) :=
  ⟨by decide, by decide, c9_missing_anchor_noop _ (by decide) (by decide)⟩

/-- C10: `sanitize_notebook` rewrites only the `source` of markdown cells:
top-level fields other than `cells` are untouched, each cell's `cell_type` and
other fields are untouched, and a cell whose `cell_type` is not `markdown` is
returned exactly as loaded. -/
theorem c10_frame :
    ∀ (ν ρ : Type) (nb : Notebook ν ρ),
      (sanitizeNotebook nb).meta = nb.meta ∧
      (sanitizeNotebook nb).cells = nb.cells.map sanitizeCell ∧
      ∀ c ∈ nb.cells,
        (c.cellType ≠ "markdown".data → sanitizeCell c = c) ∧
        (sanitizeCell c).cellType = c.cellType ∧
        (sanitizeCell c).meta = c.meta := by
  intro ν ρ nb
  refine ⟨rfl, rfl, ?_⟩
  intro c _
  refine ⟨fun h => by simp [sanitizeCell, h], ?_, ?_⟩
  · by_cases h : c.cellType = "markdown".data <;> simp [sanitizeCell, h]
  · by_cases h : c.cellType = "markdown".data <;> simp [sanitizeCell, h]

theorem c10_witness :
    (sampleCodeCell ∈ sampleNotebook.cells) ∧
    ("code".data ≠ "markdown".data) ∧
    sanitizeCell sampleCodeCell = sampleCodeCell :=
  ⟨by decide, by decide,
    ((c10_frame Unit Unit sampleNotebook).2.2 sampleCodeCell (by decide)).1 (by decide)⟩

end S2P
